import Mathlib

/-!
Verification of the libsdcxx bigram-profile / sequence-matcher library.

Shallow embedding of `src/libsdcxx/bigrams.hxx` (counted bigram profile),
`src/libsdcxx/bigram_multiset.hxx` (ordered and unordered multiset profiles)
and `src/libsdcxx/sequence_matcher.hxx` (triangular matrix and match
iterator).  Characters are modelled as natural-number codes, `size_t`
counters as `ℕ`, and `double` as `ℚ` (the C++ code only forms ratios of
small integer cardinalities and exact thresholds; IEEE special values
arising from division by zero are modelled explicitly by case analysis,
see `cardRatioPrune`).  The memoising matrix cells of the matcher only
cache values that are recomputed identically on demand, so the matrix is
embedded by the pure recursions `bigrams_size` / `bigrams` that the cells
memoise.
-/

namespace Libsdcxx

/-- Bigram: ordered pair of characters (character = its code as `ℕ`),
modelling `bigram_t = std::tuple<char_t, char_t>`. -/
abbrev Bigram : Type := ℕ × ℕ

/-- Lexicographic strict order on bigrams: `std::less<std::tuple<c,c>>`,
used by `std::sort`, `std::multiset` and `std::set_intersection`. -/
def bltB (x y : Bigram) : Prop := x.1 < y.1 ∨ (x.1 = y.1 ∧ x.2 < y.2)

instance (x y : Bigram) : Decidable (bltB x y) := by unfold bltB; infer_instance

/-- Lexicographic non-strict order on bigrams (the sort relation). -/
def bleB (x y : Bigram) : Prop := x.1 < y.1 ∨ (x.1 = y.1 ∧ x.2 ≤ y.2)

instance (x y : Bigram) : Decidable (bleB x y) := by unfold bleB; infer_instance

instance : IsTotal Bigram bleB := by
  constructor
  intro a b
  unfold bleB
  omega

instance : IsTrans Bigram bleB := by
  constructor
  intro a b c hab hbc
  unfold bleB at hab hbc ⊢
  omega

/-- The comparator `basic_bigrams::cmp` (bigrams.hxx:94-103): signed
difference of the first characters, then of the second ones.  Character
codes are subtracted in `ℤ` (the source casts to `ssize_t`). -/
def bcmp (x y : Bigram) : ℤ :=
  if ((x.1 : ℤ) - (y.1 : ℤ)) = 0 then (x.2 : ℤ) - (y.2 : ℤ)
  else (x.1 : ℤ) - (y.1 : ℤ)

/-- The bigram list of a string: the source loop
`for i in [0, size-2]: (str[i], str[i+1])`; empty when `|s| < 2`. -/
def adjPairs (s : List ℕ) : List Bigram :=
  (List.range (s.length - 1)).map (fun k => (s.getD k 0, s.getD (k + 1) 0))

/-- Counted bigram profile: `basic_bigrams` keeps a sorted list of
`(bigram, count)` pairs (`m_impl`) and the cached total `m_size`. -/
structure bigrams where
  m_impl : List (Bigram × ℕ)
  m_size : ℕ
deriving DecidableEq

instance : Inhabited bigrams := ⟨⟨[], 0⟩⟩

namespace bigrams

/-- Sum of the stored counts of a `(bigram, count)` list. -/
def sumCounts (l : List (Bigram × ℕ)) : ℕ := (l.map Prod.snd).sum

/-- Multiset denotation of a `(bigram, count)` list: each bigram with its
multiplicity. -/
def toMul (l : List (Bigram × ℕ)) : Multiset Bigram :=
  (l.map (fun bc => Multiset.replicate bc.2 bc.1)).sum

/-- One step of the run-length encoding: prepend bigram `b` to an encoded
tail, merging it into the first entry when the bigrams agree (the source
compares against the last emitted entry, bigrams.hxx:133-138). -/
def rleCons (b : Bigram) : List (Bigram × ℕ) → List (Bigram × ℕ)
  | [] => [(b, 1)]
  | (b', c) :: t => if b = b' then (b, c + 1) :: t else (b, 1) :: (b', c) :: t

/-- Run-length encoding of a (sorted) bigram list, as performed by the
unification loop of `basic_bigrams(const string_t &)` (bigrams.hxx:130-139):
consecutive equal bigrams are merged into one `(bigram, count)` entry. -/
def rle : List Bigram → List (Bigram × ℕ)
  | [] => []
  | b :: bs => rleCons b (rle bs)

/-- Constructor from a string (bigrams.hxx:115-140): build the adjacent
bigram list, sort it (`std::sort`, lexicographic), set `m_size` to its
length, and store the run-length encoding. -/
def ofString (s : List ℕ) : bigrams :=
  if s.length < 2 then ⟨[], 0⟩
  else ⟨rle (List.insertionSort bleB (adjPairs s)),
        (List.insertionSort bleB (adjPairs s)).length⟩

/-- Merge loop of `operator +=` (bigrams.hxx:179-208): walk `m_impl` and
the other list in parallel, summing counts on equal bigrams, inserting
smaller ones from the other list, and appending its tail. -/
def bgmerge : List (Bigram × ℕ) → List (Bigram × ℕ) → List (Bigram × ℕ)
  | my, [] => my
  | [], o :: os => o :: os
  | m :: ms, o :: os =>
    if bcmp m.1 o.1 < 0 then m :: bgmerge ms (o :: os)
    else if bcmp m.1 o.1 = 0 then (m.1, m.2 + o.2) :: bgmerge ms os
    else o :: bgmerge (m :: ms) os
termination_by l1 l2 => l1.length + l2.length

/-- In-place union `operator +=` (bigrams.hxx:175-211): empty receiver is
replaced by the argument; otherwise the lists are merged and `m_size` is
incremented by every count of the argument list. -/
def plusEq (a b : bigrams) : bigrams :=
  if a.m_size = 0 then b
  else ⟨bgmerge a.m_impl b.m_impl, a.m_size + sumCounts b.m_impl⟩

/-- Variadic `unite` (bigrams.hxx:216-235): `unite(a1, as...) = unite(as...) += a1`,
with a single argument copied.  Modelled on a head plus list of arguments. -/
def unite (a : bigrams) : List bigrams → bigrams
  | [] => a
  | r :: rs => plusEq (unite r rs) a

/-- Binary union `operator +` (bigrams.hxx:244-246): `unite(*this, other)`. -/
def add (a b : bigrams) : bigrams := unite a [b]

/-- Intersection-cardinality loop of `intersect_size` (bigrams.hxx:259-282):
parallel walk adding `min` of the counts on equal bigrams. -/
def isectCnt : List (Bigram × ℕ) → List (Bigram × ℕ) → ℕ
  | [], _ => 0
  | _ :: _, [] => 0
  | m :: ms, o :: os =>
    if bcmp m.1 o.1 < 0 then isectCnt ms (o :: os)
    else if bcmp m.1 o.1 = 0 then min m.2 o.2 + isectCnt ms os
    else isectCnt (m :: ms) os
termination_by l1 l2 => l1.length + l2.length

/-- `basic_bigrams::intersect_size` (bigrams.hxx:259-282). -/
def intersect_size (a b : bigrams) : ℕ := isectCnt a.m_impl b.m_impl

/-- `basic_bigrams::sorensen_dice_coef` (bigrams.hxx:299-305), with
`double` modelled as `ℚ`: `2·isect/(size+size)` when the intersection
size is non-zero, else `0`. -/
def sorensen_dice_coef (a b : bigrams) : ℚ :=
  let isect := intersect_size a b
  if isect ≠ 0 then 2 * (isect : ℚ) / ((a.m_size : ℚ) + (b.m_size : ℚ)) else 0

/-- Strict key order on `(bigram, count)` entries, as decided by `cmp`. -/
def keyLt (x y : Bigram × ℕ) : Prop := bcmp x.1 y.1 < 0

/-- Representation invariant of the counted profile: strictly increasing
bigrams under the comparator (no duplicate keys), positive counts, and
`m_size` equal to the sum of the counts. -/
def WF (a : bigrams) : Prop :=
  a.m_impl.Pairwise keyLt ∧
  (∀ z ∈ a.m_impl, 1 ≤ z.2) ∧
  a.m_size = sumCounts a.m_impl

/-- Profiles reachable through the public counted-profile constructors:
default constructor, construction from a string, `operator +=`, `operator +`
and variadic `unite` (copy construction is the identity in the model). -/
inductive Reachable : bigrams → Prop
  | empty : Reachable ⟨[], 0⟩
  | ofString (s : List ℕ) : Reachable (ofString s)
  | plusEq {a b : bigrams} : Reachable a → Reachable b → Reachable (plusEq a b)
  | unite {a : bigrams} {l : List bigrams} :
      Reachable a → (∀ b ∈ l, Reachable b) → Reachable (unite a l)

end bigrams

/-- Ordered multiset bigram profile: `basic_bigram_multiset` instantiated
with `std::multiset` (bigram_multiset.hxx:310-311).  The container is a
sorted list with one entry per bigram occurrence. -/
structure bigram_multiset where
  m_impl : List Bigram
deriving DecidableEq

instance : Inhabited bigram_multiset := ⟨⟨[]⟩⟩

/-- Unordered multiset bigram profile: `basic_bigram_multiset` instantiated
with `std::unordered_multiset` (bigram_multiset.hxx:312-315).  The standard
leaves the iteration order of the hashed container unspecified; the model
keeps the elements in insertion order. -/
structure unordered_bigram_multiset where
  m_impl : List Bigram
deriving DecidableEq

instance : Inhabited unordered_bigram_multiset := ⟨⟨[]⟩⟩

/-- Element-level loop of `std::set_intersection` with `std::less` on
bigrams, writing into the counting iterator of
`basic_bigram_multiset::intersect_size` (bigram_multiset.hxx:192-214):
each match consumes one element of each range and bumps the counter. -/
def msIsectCnt : List Bigram → List Bigram → ℕ
  | [], _ => 0
  | _ :: _, [] => 0
  | a :: as, b :: bs =>
    if bltB a b then msIsectCnt as (b :: bs)
    else if bltB b a then msIsectCnt (a :: as) bs
    else 1 + msIsectCnt as bs
termination_by l1 l2 => l1.length + l2.length

namespace bigram_multiset

/-- Constructor from a string (bigram_multiset.hxx:95-99): each adjacent
bigram is `emplace`d; `std::multiset` keeps the elements sorted. -/
def ofString (s : List ℕ) : bigram_multiset :=
  ⟨(adjPairs s).foldl (fun l b => l.orderedInsert bleB b) []⟩

/-- Size (bigram_multiset.hxx:115): the container size, i.e. the number of
stored occurrences. -/
def size (a : bigram_multiset) : ℕ := a.m_impl.length

/-- In-place union `operator +=` (bigram_multiset.hxx:134-142): empty
receiver is replaced by the argument, otherwise every element of the
argument is inserted. -/
def plusEq (a b : bigram_multiset) : bigram_multiset :=
  if a.size = 0 then b
  else ⟨b.m_impl.foldl (fun l x => l.orderedInsert bleB x) a.m_impl⟩

/-- Variadic `unite` (bigram_multiset.hxx:147-169). -/
def unite (a : bigram_multiset) : List bigram_multiset → bigram_multiset
  | [] => a
  | r :: rs => plusEq (unite r rs) a

/-- Binary union `operator +` (bigram_multiset.hxx:178-180). -/
def add (a b : bigram_multiset) : bigram_multiset := unite a [b]

/-- `intersect_size` (bigram_multiset.hxx:192-214). -/
def intersect_size (a b : bigram_multiset) : ℕ := msIsectCnt a.m_impl b.m_impl

/-- `sorensen_dice_coef` (bigram_multiset.hxx:231-237), `double` as `ℚ`. -/
def sorensen_dice_coef (a b : bigram_multiset) : ℚ :=
  let isect := intersect_size a b
  if isect ≠ 0 then 2 * (isect : ℚ) / ((a.size : ℚ) + (b.size : ℚ)) else 0

end bigram_multiset

namespace unordered_bigram_multiset

/-- Constructor from a string (bigram_multiset.hxx:95-99) for the hashed
container: each adjacent bigram is `emplace`d; the model records them in
insertion order (the real iteration order is unspecified). -/
def ofString (s : List ℕ) : unordered_bigram_multiset := ⟨adjPairs s⟩

/-- Size (bigram_multiset.hxx:115). -/
def size (a : unordered_bigram_multiset) : ℕ := a.m_impl.length

/-- In-place union `operator +=` (bigram_multiset.hxx:134-142). -/
def plusEq (a b : unordered_bigram_multiset) : unordered_bigram_multiset :=
  if a.size = 0 then b else ⟨a.m_impl ++ b.m_impl⟩

/-- Variadic `unite` (bigram_multiset.hxx:147-169). -/
def unite (a : unordered_bigram_multiset) :
    List unordered_bigram_multiset → unordered_bigram_multiset
  | [] => a
  | r :: rs => plusEq (unite r rs) a

/-- Binary union `operator +` (bigram_multiset.hxx:178-180). -/
def add (a b : unordered_bigram_multiset) : unordered_bigram_multiset :=
  unite a [b]

/-- `intersect_size` (bigram_multiset.hxx:192-214): the same
`std::set_intersection` loop, applied to the (hash-ordered) ranges. -/
def intersect_size (a b : unordered_bigram_multiset) : ℕ :=
  msIsectCnt a.m_impl b.m_impl

/-- `sorensen_dice_coef` (bigram_multiset.hxx:231-237), `double` as `ℚ`. -/
def sorensen_dice_coef (a b : unordered_bigram_multiset) : ℚ :=
  let isect := intersect_size a b
  if isect ≠ 0 then 2 * (isect : ℚ) / ((a.size : ℚ) + (b.size : ℚ)) else 0

end unordered_bigram_multiset

/-- Sequence matcher state: the appended row-0 profiles with their strip
flags.  `basic_sequence_matcher` keeps row 0 of `m_mx` (the per-token
profiles set by `push_back`) and `m_strip_ixs`; the higher rows only
memoise values of the pure recursions modelled below. -/
abbrev sequence_matcher : Type := List (bigrams × Bool)

namespace sequence_matcher

/-- `basic_sequence_matcher::size` (sequence_matcher.hxx:444). -/
def size (m : sequence_matcher) : ℕ := m.length

/-- `push_back` (sequence_matcher.hxx:464-469): append a profile with its
strip flag. -/
def push_back (m : sequence_matcher) (b : bigrams) (strip : Bool) :
    sequence_matcher := m ++ [(b, strip)]

/-- `emplace_back` (sequence_matcher.hxx:490-492). -/
def emplace_back (m : sequence_matcher) (s : List ℕ) (strip : Bool) :
    sequence_matcher := push_back m (bigrams.ofString s) strip

/-- Membership of an index in `m_strip_ixs`. -/
def stripAt (m : sequence_matcher) (j : ℕ) : Bool := (m.getD j (default, false)).2

/-- The row-0 profile at column `j` (the profile pushed as the `j`-th token). -/
def prof0 (m : sequence_matcher) (j : ℕ) : bigrams := (m.getD j (default, false)).1

/-- `bigrams_size` (sequence_matcher.hxx:545-559): the size of the cell
`(i, j)`, computed through the recursive split `sub_ix`
(sequence_matcher.hxx:524-535): `i1 = i/2, j1 = j, i2 = i - i1 - 1,
j2 = j + i1 + 1`, with row 0 as base case.  The `SIZE` cell cache only
memoises this value. -/
def bigrams_size (m : sequence_matcher) (i j : ℕ) : ℕ :=
  if i = 0 then (prof0 m j).m_size
  else
    bigrams_size m (i / 2) j
      + bigrams_size m (i - i / 2 - 1) (j + i / 2 + 1)
termination_by i
decreasing_by
  all_goals omega

/-- `bigrams` getter (sequence_matcher.hxx:569-582): the profile of the
cell `(i, j)`, the union (`operator +`) of the two sub-cells given by
`sub_ix`.  The `BIGRAMS` cell cache only memoises this value. -/
def bigrams_at (m : sequence_matcher) (i j : ℕ) : bigrams :=
  if i = 0 then prof0 m j
  else
    bigrams.add (bigrams_at m (i / 2) j)
      (bigrams_at m (i - i / 2 - 1) (j + i / 2 + 1))
termination_by i
decreasing_by
  all_goals omega

/-- Match iterator state (sequence_matcher.hxx:287-288): matrix indices
and the Sørensen-Dice coefficient at the current cell. -/
structure iterator where
  m_i : ℕ
  m_j : ℕ
  m_sdc : ℚ
deriving DecidableEq

/-- The cardinality-ratio threshold `2.0 / threshold - 1.0` computed by the
iterator constructor (sequence_matcher.hxx:310).  For `threshold = 0` the
IEEE quotient is `+∞`, modelled as `none`. -/
def cardRatioBound (θ : ℚ) : Option ℚ :=
  if θ = 0 then none else some (2 / θ - 1)

/-- The cardinality-ratio check of `next_match`
(sequence_matcher.hxx:330-344) on sizes `B` (sub-sequence) and `A`
(query): `card_ratio = B/A`, inverted when the sub-sequence is the shorter
side, then compared with the bound.  Result: `some true` = `continue`
(try a longer sub-sequence), `some false` = `break` (stop extending),
`none` = no pruning (the SDC is computed).  The zero-size cases mirror the
IEEE semantics of the `double` division: `B/0 = +∞` for `B > 0` (breaks
on any finite bound), `0/0 = NaN` (all comparisons false, no pruning),
`0/A = 0` inverted to `+∞` (continues on any finite bound), and with an
infinite bound no comparison succeeds. -/
def cardRatioPrune (B A : ℕ) (bound : Option ℚ) : Option Bool :=
  match bound with
  | none => none
  | some bnd =>
    if A = 0 then (if B = 0 then none else some false)
    else if B = 0 then some true
    else if B < A then (if bnd < (A : ℚ) / (B : ℚ) then some true else none)
    else (if bnd < (B : ℚ) / (A : ℚ) then some false else none)

/-- Inner loop of `next_match` (sequence_matcher.hxx:326-352) for a fixed
column `j`, scanning the row index from `i` upwards: skip sub-sequences
ending in a strip token, apply the cardinality-ratio pruning, otherwise
compute the SDC and stop when it reaches the threshold.  Returns the
matching row index (or `none` when the loop ends by exhaustion or
`break`) together with the final `m_sdc` value. -/
def scanI (m : sequence_matcher) (Q : bigrams) (θ : ℚ) (j : ℕ) (i : ℕ)
    (sdc : ℚ) : Option ℕ × ℚ :=
  if i < size m - j then
    if stripAt m (j + i) then scanI m Q θ j (i + 1) sdc
    else
      match cardRatioPrune (bigrams_size m i j) Q.m_size (cardRatioBound θ) with
      | some true => scanI m Q θ j (i + 1) sdc
      | some false => (none, sdc)
      | none =>
        if bigrams.sorensen_dice_coef (bigrams_at m i j) Q < θ then
          scanI m Q θ j (i + 1) (bigrams.sorensen_dice_coef (bigrams_at m i j) Q)
        else (some i, bigrams.sorensen_dice_coef (bigrams_at m i j) Q)
  else (none, sdc)
termination_by size m - j - i
decreasing_by
  all_goals omega

/-- Outer loop of `next_match` (sequence_matcher.hxx:321-356): advance the
column `j`, skipping columns whose token is a strip token (this keeps the
current row index, as the `continue` bypasses the `m_i = 0` reset) and
resetting the row index to `0` after an unsuccessful inner scan. -/
def scanJ (m : sequence_matcher) (Q : bigrams) (θ : ℚ) (j i : ℕ) (sdc : ℚ) :
    iterator :=
  if j < size m then
    if stripAt m j then scanJ m Q θ (j + 1) i sdc
    else
      match scanI m Q θ j i sdc with
      | (some i', s) => ⟨i', j, s⟩
      | (none, s) => scanJ m Q θ (j + 1) 0 s
  else ⟨i, j, sdc⟩
termination_by size m - j
decreasing_by
  all_goals omega

/-- `begin` (sequence_matcher.hxx:505-507): the iterator constructor
(sequence_matcher.hxx:301-314) starts at `(i, j) = (0, 0)` with
`m_sdc = 0` and immediately runs `next_match`. -/
def begin (m : sequence_matcher) (Q : bigrams) (θ : ℚ) : iterator :=
  scanJ m Q θ 0 0 0

/-- `end` (sequence_matcher.hxx:510) via the `END` constructor
(sequence_matcher.hxx:316-318): an iterator built with the empty query,
threshold `0` and `(i, j) = (0, size)`; its `next_match` returns at once. -/
def endIter (m : sequence_matcher) : iterator :=
  scanJ m ⟨[], 0⟩ 0 (size m) 0 0

/-- `operator ++` (sequence_matcher.hxx:389-393): increment the row index,
then seek the next match. -/
def inc (m : sequence_matcher) (Q : bigrams) (θ : ℚ) (st : iterator) :
    iterator :=
  scanJ m Q θ st.m_j (st.m_i + 1) st.m_sdc

/-- `operator ==` (sequence_matcher.hxx:396-398): equality of the matrix
indices alone. -/
def iterEq (a b : iterator) : Bool := a.m_i == b.m_i && a.m_j == b.m_j

/-- The state reached after `n` increments of the begin iterator. -/
def iterN (m : sequence_matcher) (Q : bigrams) (θ : ℚ) (n : ℕ) : iterator :=
  (inc m Q θ)^[n] (begin m Q θ)

/-- Cell `(i, j)` qualifies within its row: it is in-triangle, the
sub-sequence does not end with a strip token, and the SDC of its profile
against the query reaches the threshold. -/
def QualRow (m : sequence_matcher) (Q : bigrams) (θ : ℚ) (j i : ℕ) : Prop :=
  i + j < size m ∧ stripAt m (j + i) = false ∧
  θ ≤ bigrams.sorensen_dice_coef (bigrams_at m i j) Q

/-- Cell `(i, j)` is a match: additionally the sub-sequence does not begin
with a strip token. -/
def Qual (m : sequence_matcher) (Q : bigrams) (θ : ℚ) (j i : ℕ) : Prop :=
  stripAt m j = false ∧ QualRow m Q θ j i

end sequence_matcher


/-! Lemmas about the bigram comparators. -/

theorem bcmp_eq_zero_iff (x y : Bigram) : bcmp x y = 0 ↔ x = y := by
  rcases x with ⟨x1, x2⟩
  rcases y with ⟨y1, y2⟩
  simp only [bcmp, Prod.mk.injEq]
  split_ifs with h <;> omega

theorem bcmp_lt_iff (x y : Bigram) : bcmp x y < 0 ↔ bltB x y := by
  rcases x with ⟨x1, x2⟩
  rcases y with ⟨y1, y2⟩
  simp only [bcmp, bltB]
  split_ifs with h <;> omega

theorem bcmp_swap_neg (x y : Bigram) : bcmp y x = -bcmp x y := by
  rcases x with ⟨x1, x2⟩
  rcases y with ⟨y1, y2⟩
  unfold bcmp
  split_ifs with h1 h2 h2 <;> omega

theorem bltB_trans {x y z : Bigram} (h1 : bltB x y) (h2 : bltB y z) :
    bltB x z := by
  unfold bltB at h1 h2 ⊢
  omega

theorem eq_of_not_bltB {x y : Bigram} (h1 : ¬ bltB x y) (h2 : ¬ bltB y x) :
    x = y := by
  rcases x with ⟨x1, x2⟩
  rcases y with ⟨y1, y2⟩
  unfold bltB at h1 h2
  simp only [Prod.mk.injEq]
  omega

theorem bltB_of_bleB_of_ne {x y : Bigram} (h : bleB x y) (hne : x ≠ y) :
    bltB x y := by
  have h2 : ¬ (x.1 = y.1 ∧ x.2 = y.2) := by
    rw [← Prod.ext_iff]
    exact hne
  unfold bleB at h
  unfold bltB
  omega

namespace bigrams

theorem keyLt_trans {x y z : Bigram × ℕ} (h1 : keyLt x y) (h2 : keyLt y z) :
    keyLt x z := by
  unfold keyLt at h1 h2 ⊢
  rw [bcmp_lt_iff] at h1 h2 ⊢
  exact bltB_trans h1 h2

/-! Lemmas about the multiset denotation of a counted list. -/

@[simp] theorem sumCounts_nil : sumCounts [] = 0 := rfl

@[simp] theorem sumCounts_cons (z : Bigram × ℕ) (l : List (Bigram × ℕ)) :
    sumCounts (z :: l) = z.2 + sumCounts l := by
  simp [sumCounts]

@[simp] theorem toMul_nil : toMul [] = 0 := rfl

@[simp] theorem toMul_cons (z : Bigram × ℕ) (l : List (Bigram × ℕ)) :
    toMul (z :: l) = Multiset.replicate z.2 z.1 + toMul l := by
  simp [toMul]

theorem card_toMul (l : List (Bigram × ℕ)) :
    Multiset.card (toMul l) = sumCounts l := by
  induction l with
  | nil => simp
  | cons z l ih => simp [ih]

theorem count_toMul_eq_zero {b : Bigram} {l : List (Bigram × ℕ)}
    (h : ∀ z ∈ l, z.1 ≠ b) : Multiset.count b (toMul l) = 0 := by
  induction l with
  | nil => simp
  | cons z l ih =>
    have hz : z.1 ≠ b := h z (by simp)
    have ht : ∀ w ∈ l, w.1 ≠ b := fun w hw => h w (by simp [hw])
    simp only [toMul_cons, Multiset.count_add, Multiset.count_replicate,
      ih ht, add_zero]
    rw [if_neg hz]

theorem sumCounts_eq_zero {l : List (Bigram × ℕ)}
    (hc : ∀ z ∈ l, 1 ≤ z.2) (h : sumCounts l = 0) : l = [] := by
  cases l with
  | nil => rfl
  | cons z l =>
    have := hc z (by simp)
    simp at h
    omega

/-! Lemmas about the `operator +=` merge loop. -/

@[simp] theorem bgmerge_nil_right (l : List (Bigram × ℕ)) :
    bgmerge l [] = l := by
  cases l <;> simp [bgmerge]

@[simp] theorem bgmerge_nil_left (l : List (Bigram × ℕ)) :
    bgmerge [] l = l := by
  cases l <;> simp [bgmerge]

theorem toMul_bgmerge (l1 l2 : List (Bigram × ℕ)) :
    toMul (bgmerge l1 l2) = toMul l1 + toMul l2 := by
  induction l1, l2 using bgmerge.induct with
  | case1 my => simp
  | case2 o os => simp
  | case3 m ms o os h ih =>
    simp only [bgmerge, if_pos h, toMul_cons, ih]
    abel
  | case4 m ms o os h h0 ih =>
    have hk : m.1 = o.1 := (bcmp_eq_zero_iff m.1 o.1).mp h0
    simp only [bgmerge, if_neg h, if_pos h0, toMul_cons, ih,
      Multiset.replicate_add]
    rw [hk]
    abel
  | case5 m ms o os h h0 ih =>
    simp only [bgmerge, if_neg h, if_neg h0, toMul_cons, ih]
    abel

theorem sumCounts_bgmerge (l1 l2 : List (Bigram × ℕ)) :
    sumCounts (bgmerge l1 l2) = sumCounts l1 + sumCounts l2 := by
  rw [← card_toMul, toMul_bgmerge, Multiset.card_add, card_toMul, card_toMul]

theorem bgmerge_keys (P : Bigram → Prop) :
    ∀ {l1 l2 : List (Bigram × ℕ)}, (∀ z ∈ l1, P z.1) → (∀ z ∈ l2, P z.1) →
    ∀ z ∈ bgmerge l1 l2, P z.1 := by
  intro l1 l2
  induction l1, l2 using bgmerge.induct with
  | case1 my =>
    intro h1 _ z hz
    rw [bgmerge_nil_right] at hz
    exact h1 z hz
  | case2 o os =>
    intro _ h2 z hz
    rw [bgmerge_nil_left] at hz
    exact h2 z hz
  | case3 m ms o os h ih =>
    intro h1 h2 z hz
    simp only [bgmerge, if_pos h, List.mem_cons] at hz
    rcases hz with rfl | hz
    · exact h1 z (by simp)
    · exact ih (fun w hw => h1 w (by simp [hw])) h2 z hz
  | case4 m ms o os h h0 ih =>
    intro h1 h2 z hz
    simp only [bgmerge, if_neg h, if_pos h0, List.mem_cons] at hz
    rcases hz with rfl | hz
    · exact h1 m (by simp)
    · exact ih (fun w hw => h1 w (by simp [hw])) (fun w hw => h2 w (by simp [hw]))
        z hz
  | case5 m ms o os h h0 ih =>
    intro h1 h2 z hz
    simp only [bgmerge, if_neg h, if_neg h0, List.mem_cons] at hz
    rcases hz with rfl | hz
    · exact h2 z (by simp)
    · exact ih h1 (fun w hw => h2 w (by simp [hw])) z hz

theorem counts_bgmerge :
    ∀ {l1 l2 : List (Bigram × ℕ)}, (∀ z ∈ l1, 1 ≤ z.2) → (∀ z ∈ l2, 1 ≤ z.2) →
    ∀ z ∈ bgmerge l1 l2, 1 ≤ z.2 := by
  intro l1 l2
  induction l1, l2 using bgmerge.induct with
  | case1 my =>
    intro h1 _ z hz
    rw [bgmerge_nil_right] at hz
    exact h1 z hz
  | case2 o os =>
    intro _ h2 z hz
    rw [bgmerge_nil_left] at hz
    exact h2 z hz
  | case3 m ms o os h ih =>
    intro h1 h2 z hz
    simp only [bgmerge, if_pos h, List.mem_cons] at hz
    rcases hz with rfl | hz
    · exact h1 z (by simp)
    · exact ih (fun w hw => h1 w (by simp [hw])) h2 z hz
  | case4 m ms o os h h0 ih =>
    intro h1 h2 z hz
    simp only [bgmerge, if_neg h, if_pos h0, List.mem_cons] at hz
    rcases hz with rfl | hz
    · have := h1 m (by simp)
      omega
    · exact ih (fun w hw => h1 w (by simp [hw])) (fun w hw => h2 w (by simp [hw]))
        z hz
  | case5 m ms o os h h0 ih =>
    intro h1 h2 z hz
    simp only [bgmerge, if_neg h, if_neg h0, List.mem_cons] at hz
    rcases hz with rfl | hz
    · exact h2 z (by simp)
    · exact ih h1 (fun w hw => h2 w (by simp [hw])) z hz

theorem pairwise_bgmerge :
    ∀ {l1 l2 : List (Bigram × ℕ)}, l1.Pairwise keyLt → l2.Pairwise keyLt →
    (bgmerge l1 l2).Pairwise keyLt := by
  intro l1 l2
  induction l1, l2 using bgmerge.induct with
  | case1 my =>
    intro h1 _
    rw [bgmerge_nil_right]
    exact h1
  | case2 o os =>
    intro _ h2
    rw [bgmerge_nil_left]
    exact h2
  | case3 m ms o os h ih =>
    intro h1 h2
    rw [List.pairwise_cons] at h1
    simp only [bgmerge, if_pos h, List.pairwise_cons]
    refine ⟨?_, ih h1.2 h2⟩
    have key : ∀ z ∈ bgmerge ms (o :: os), bcmp m.1 z.1 < 0 := by
      refine bgmerge_keys (fun k => bcmp m.1 k < 0) (fun w hw => h1.1 w hw) ?_
      intro z hz
      rw [List.mem_cons] at hz
      rcases hz with rfl | hz
      · exact h
      · have h2' := (List.pairwise_cons.mp h2).1 z hz
        unfold keyLt at h2'
        rw [bcmp_lt_iff] at h2' ⊢
        exact bltB_trans ((bcmp_lt_iff _ _).mp h) h2'
    exact fun z hz => key z hz
  | case4 m ms o os h h0 ih =>
    intro h1 h2
    rw [List.pairwise_cons] at h1 h2
    have hk : m.1 = o.1 := (bcmp_eq_zero_iff m.1 o.1).mp h0
    simp only [bgmerge, if_neg h, if_pos h0, List.pairwise_cons]
    refine ⟨?_, ih h1.2 h2.2⟩
    have key : ∀ z ∈ bgmerge ms os, bcmp m.1 z.1 < 0 := by
      refine bgmerge_keys (fun k => bcmp m.1 k < 0) (fun w hw => h1.1 w hw) ?_
      intro z hz
      have := h2.1 z hz
      rw [hk]
      exact this
    exact fun z hz => key z hz
  | case5 m ms o os h h0 ih =>
    intro h1 h2
    rw [List.pairwise_cons] at h2
    simp only [bgmerge, if_neg h, if_neg h0, List.pairwise_cons]
    refine ⟨?_, ih h1 h2.2⟩
    have hom : bcmp o.1 m.1 < 0 := by
      rw [bcmp_swap_neg]
      omega
    have key : ∀ z ∈ bgmerge (m :: ms) os, bcmp o.1 z.1 < 0 := by
      refine bgmerge_keys (fun k => bcmp o.1 k < 0) ?_ (fun w hw => h2.1 w hw)
      intro z hz
      rw [List.mem_cons] at hz
      rcases hz with rfl | hz
      · exact hom
      · have hmz := (List.pairwise_cons.mp h1).1 z hz
        unfold keyLt at hmz
        rw [bcmp_lt_iff] at hom hmz ⊢
        exact bltB_trans hom hmz
    exact fun z hz => key z hz


/-! Lemmas about the run-length encoding used by the string constructor. -/

@[simp] theorem rle_nil : rle [] = [] := rfl

@[simp] theorem rle_cons (b : Bigram) (bs : List Bigram) :
    rle (b :: bs) = rleCons b (rle bs) := rfl

theorem toMul_rleCons (b : Bigram) (l : List (Bigram × ℕ)) :
    toMul (rleCons b l) = b ::ₘ toMul l := by
  cases l with
  | nil => simp [rleCons]
  | cons z t =>
    rcases z with ⟨b', c⟩
    by_cases hbb : b = b'
    · subst hbb
      simp [rleCons, Multiset.replicate_succ]
    · simp [rleCons, hbb]

theorem toMul_rle (l : List Bigram) : toMul (rle l) = ↑l := by
  induction l with
  | nil => simp
  | cons b bs ih => simp [toMul_rleCons, ih]

theorem sumCounts_rle (l : List Bigram) : sumCounts (rle l) = l.length := by
  rw [← card_toMul, toMul_rle, Multiset.coe_card]

theorem rleCons_keys {b : Bigram} {l : List (Bigram × ℕ)} :
    ∀ z ∈ rleCons b l, z.1 = b ∨ z ∈ l := by
  cases l with
  | nil => simp [rleCons]
  | cons w t =>
    rcases w with ⟨b', c⟩
    by_cases hbb : b = b'
    · intro z hz
      simp only [rleCons, if_pos hbb, List.mem_cons] at hz
      rcases hz with rfl | hz
      · exact Or.inl rfl
      · exact Or.inr (by simp [hz])
    · intro z hz
      simp only [rleCons, if_neg hbb, List.mem_cons] at hz
      rcases hz with rfl | rfl | hz
      · exact Or.inl rfl
      · exact Or.inr (by simp)
      · exact Or.inr (by simp [hz])

theorem rle_keys : ∀ {l : List Bigram}, ∀ z ∈ rle l, z.1 ∈ l := by
  intro l
  induction l with
  | nil => simp
  | cons b bs ih =>
    intro z hz
    rw [rle_cons] at hz
    rcases rleCons_keys z hz with h | h
    · simp [h]
    · simp [ih z h]

theorem rle_counts : ∀ {l : List Bigram}, ∀ z ∈ rle l, 1 ≤ z.2 := by
  intro l
  induction l with
  | nil => simp
  | cons b bs ih =>
    intro z hz
    rw [rle_cons] at hz
    cases hr : rle bs with
    | nil =>
      rw [hr] at hz
      simp only [rleCons, List.mem_singleton] at hz
      simp [hz]
    | cons w t =>
      rcases w with ⟨b', c⟩
      rw [hr] at hz
      by_cases hbb : b = b'
      · simp only [rleCons, if_pos hbb, List.mem_cons] at hz
        rcases hz with rfl | hz
        · simp
        · exact ih z (by rw [hr]; simp [hz])
      · simp only [rleCons, if_neg hbb, List.mem_cons] at hz
        rcases hz with rfl | rfl | hz
        · simp
        · exact ih (b', c) (by rw [hr]; simp)
        · exact ih z (by rw [hr]; simp [hz])

theorem pairwise_rle : ∀ {l : List Bigram}, l.Pairwise bleB →
    (rle l).Pairwise keyLt := by
  intro l
  induction l with
  | nil => simp
  | cons b bs ih =>
    intro hp
    rw [List.pairwise_cons] at hp
    rw [rle_cons]
    cases hr : rle bs with
    | nil => simp [rleCons]
    | cons w t =>
      rcases w with ⟨b', c⟩
      have ihp : ((b', c) :: t).Pairwise keyLt := by
        rw [← hr]
        exact ih hp.2
      rw [List.pairwise_cons] at ihp
      have hb' : b' ∈ bs := rle_keys (b', c) (by rw [hr]; simp)
      by_cases hbb : b = b'
      · subst hbb
        have hre : rleCons b ((b, c) :: t) = (b, c + 1) :: t := by
          simp [rleCons]
        rw [hre, List.pairwise_cons]
        exact ⟨fun z hz => ihp.1 z hz, ihp.2⟩
      · have hlt : bltB b b' := bltB_of_bleB_of_ne (hp.1 b' hb') hbb
        simp only [rleCons, if_neg hbb, List.pairwise_cons]
        refine ⟨?_, fun z hz => ihp.1 z hz, ihp.2⟩
        intro z hz
        rw [List.mem_cons] at hz
        rcases hz with rfl | hz
        · unfold keyLt
          rw [bcmp_lt_iff]
          exact hlt
        · have := ihp.1 z hz
          unfold keyLt at this ⊢
          rw [bcmp_lt_iff] at this ⊢
          exact bltB_trans hlt this

/-! Well-formedness of the counted-profile constructors. -/

theorem WF_empty : WF ⟨[], 0⟩ := ⟨List.Pairwise.nil, by simp, rfl⟩

theorem WF_ofString (s : List ℕ) : WF (ofString s) := by
  unfold ofString
  split_ifs with h
  · exact WF_empty
  · exact ⟨pairwise_rle (List.sorted_insertionSort bleB (adjPairs s)),
      fun z hz => rle_counts z hz,
      (sumCounts_rle _).symm⟩

theorem m_impl_empty_of_WF {a : bigrams} (ha : WF a) (h : a.m_size = 0) :
    a.m_impl = [] := by
  refine sumCounts_eq_zero ha.2.1 ?_
  rw [← ha.2.2]
  exact h

theorem toMul_plusEq {a b : bigrams} (ha : WF a) :
    toMul (plusEq a b).m_impl = toMul a.m_impl + toMul b.m_impl := by
  unfold plusEq
  split_ifs with h
  · rw [m_impl_empty_of_WF ha h]
    simp
  · exact toMul_bgmerge a.m_impl b.m_impl

theorem m_size_plusEq {a b : bigrams} (hb : WF b) :
    (plusEq a b).m_size = a.m_size + b.m_size := by
  unfold plusEq
  split_ifs with h
  · rw [h, Nat.zero_add]
  · show a.m_size + sumCounts b.m_impl = a.m_size + b.m_size
    rw [hb.2.2]

theorem WF_plusEq {a b : bigrams} (ha : WF a) (hb : WF b) :
    WF (plusEq a b) := by
  unfold plusEq
  split_ifs with h
  · exact hb
  · refine ⟨pairwise_bgmerge ha.1 hb.1, counts_bgmerge ha.2.1 hb.2.1, ?_⟩
    show a.m_size + sumCounts b.m_impl = sumCounts (bgmerge a.m_impl b.m_impl)
    rw [sumCounts_bgmerge, ha.2.2]

theorem WF_unite : ∀ {l : List bigrams} {a : bigrams}, WF a →
    (∀ b ∈ l, WF b) → WF (unite a l) := by
  intro l
  induction l with
  | nil =>
    intro a ha _
    exact ha
  | cons r rs ih =>
    intro a ha hl
    have h1 : WF (unite r rs) := ih (hl r (by simp)) (fun b hb => hl b (by simp [hb]))
    exact WF_plusEq h1 ha

theorem WF_add {a b : bigrams} (ha : WF a) (hb : WF b) : WF (add a b) :=
  WF_plusEq hb ha

theorem m_size_add {a b : bigrams} (ha : WF a) (hb : WF b) :
    (add a b).m_size = a.m_size + b.m_size := by
  show (plusEq b a).m_size = _
  rw [m_size_plusEq ha, Nat.add_comm]

theorem toMul_add {a b : bigrams} (hb : WF b) :
    toMul (add a b).m_impl = toMul a.m_impl + toMul b.m_impl := by
  show toMul (plusEq b a).m_impl = _
  rw [toMul_plusEq hb, add_comm]

theorem m_size_unite : ∀ {l : List bigrams} {a : bigrams}, WF a →
    (∀ b ∈ l, WF b) →
    (unite a l).m_size = a.m_size + (l.map m_size).sum := by
  intro l
  induction l with
  | nil =>
    intro a _ _
    simp [unite]
  | cons r rs ih =>
    intro a ha hl
    have h1 : WF (unite r rs) :=
      WF_unite (hl r (by simp)) (fun b hb => hl b (by simp [hb]))
    show (plusEq (unite r rs) a).m_size = _
    rw [m_size_plusEq ha, ih (hl r (by simp)) (fun b hb => hl b (by simp [hb]))]
    simp
    ring

/-- Specialisation of `WF_reachable` used by the claims: every profile
obtainable through the public constructors is well-formed. -/
theorem WF_reachable : ∀ {a : bigrams}, Reachable a → WF a := by
  intro a h
  induction h with
  | empty => exact WF_empty
  | ofString s => exact WF_ofString s
  | plusEq _ _ iha ihb => exact WF_plusEq iha ihb
  | unite _ _ iha ihl => exact WF_unite iha ihl


/-! Lemmas about the string constructor. -/

theorem m_size_ofString (s : List ℕ) : (ofString s).m_size = s.length - 1 := by
  unfold ofString
  split_ifs with h
  · show 0 = s.length - 1
    omega
  · show (List.insertionSort bleB (adjPairs s)).length = s.length - 1
    rw [List.length_insertionSort]
    simp [adjPairs]

theorem toMul_ofString (s : List ℕ) :
    toMul (ofString s).m_impl = ↑(adjPairs s) := by
  unfold ofString
  split_ifs with h
  · have h0 : s.length - 1 = 0 := by omega
    show toMul [] = _
    simp [adjPairs, h0]
  · show toMul (rle (List.insertionSort bleB (adjPairs s))) = _
    rw [toMul_rle]
    exact Quot.sound (List.perm_insertionSort bleB (adjPairs s))

/-! Lemmas about the intersection-cardinality loop. -/

theorem isectCnt_le_left :
    ∀ (l1 l2 : List (Bigram × ℕ)), isectCnt l1 l2 ≤ sumCounts l1 := by
  intro l1 l2
  induction l1, l2 using isectCnt.induct with
  | case1 l2 => simp [isectCnt]
  | case2 m ms => simp [isectCnt]
  | case3 m ms o os h ih =>
    simp only [isectCnt, if_pos h, sumCounts_cons]
    omega
  | case4 m ms o os h h0 ih =>
    simp only [isectCnt, if_neg h, if_pos h0, sumCounts_cons]
    omega
  | case5 m ms o os h h0 ih =>
    simp only [isectCnt, if_neg h, if_neg h0]
    exact ih

theorem isectCnt_le_right :
    ∀ (l1 l2 : List (Bigram × ℕ)), isectCnt l1 l2 ≤ sumCounts l2 := by
  intro l1 l2
  induction l1, l2 using isectCnt.induct with
  | case1 l2 => simp [isectCnt]
  | case2 m ms => simp [isectCnt]
  | case3 m ms o os h ih =>
    simp only [isectCnt, if_pos h]
    exact ih
  | case4 m ms o os h h0 ih =>
    simp only [isectCnt, if_neg h, if_pos h0, sumCounts_cons]
    omega
  | case5 m ms o os h h0 ih =>
    simp only [isectCnt, if_neg h, if_neg h0, sumCounts_cons]
    omega

theorem inter_drop_left {b : Bigram} {c : ℕ} {m1 m2 : Multiset Bigram}
    (h : Multiset.count b m2 = 0) :
    (Multiset.replicate c b + m1) ∩ m2 = m1 ∩ m2 := by
  ext x
  by_cases hx : x = b
  · subst hx
    simp [Multiset.count_inter, h]
  · simp [Multiset.count_inter, Multiset.count_replicate, hx, Ne.symm hx]

theorem inter_drop_right {b : Bigram} {c : ℕ} {m1 m2 : Multiset Bigram}
    (h : Multiset.count b m1 = 0) :
    m1 ∩ (Multiset.replicate c b + m2) = m1 ∩ m2 := by
  ext x
  by_cases hx : x = b
  · subst hx
    simp [Multiset.count_inter, h]
  · simp [Multiset.count_inter, Multiset.count_replicate, hx, Ne.symm hx]

theorem inter_replicate_both {b : Bigram} {c1 c2 : ℕ} {m1 m2 : Multiset Bigram}
    (h1 : Multiset.count b m1 = 0) (h2 : Multiset.count b m2 = 0) :
    (Multiset.replicate c1 b + m1) ∩ (Multiset.replicate c2 b + m2)
      = Multiset.replicate (min c1 c2) b + (m1 ∩ m2) := by
  ext x
  by_cases hx : x = b
  · subst hx
    simp [Multiset.count_inter, Multiset.count_replicate, h1, h2]
  · simp [Multiset.count_inter, Multiset.count_replicate, hx, Ne.symm hx]

theorem ne_of_bcmp_lt {x y : Bigram} (h : bcmp x y < 0) : x ≠ y := by
  intro he
  rw [he] at h
  have h0 : bcmp y y = 0 := (bcmp_eq_zero_iff y y).mpr rfl
  omega

theorem isectCnt_eq_card_inter :
    ∀ {l1 l2 : List (Bigram × ℕ)}, l1.Pairwise keyLt → l2.Pairwise keyLt →
    isectCnt l1 l2 = Multiset.card (toMul l1 ∩ toMul l2) := by
  intro l1 l2
  induction l1, l2 using isectCnt.induct with
  | case1 l2 =>
    intro _ _
    simp [isectCnt]
  | case2 m ms =>
    intro _ _
    simp [isectCnt]
  | case3 m ms o os h ih =>
    intro h1 h2
    have hz : Multiset.count m.1 (toMul (o :: os)) = 0 := by
      refine count_toMul_eq_zero ?_
      intro z hz
      rw [List.mem_cons] at hz
      rcases hz with rfl | hz
      · exact Ne.symm (ne_of_bcmp_lt h)
      · have hoz : keyLt o z := (List.pairwise_cons.mp h2).1 z hz
        unfold keyLt at hoz
        have hmz : bcmp m.1 z.1 < 0 := by
          rw [bcmp_lt_iff] at h hoz ⊢
          exact bltB_trans h hoz
        exact Ne.symm (ne_of_bcmp_lt hmz)
    rw [toMul_cons] at hz
    simp only [isectCnt, if_pos h, toMul_cons]
    rw [inter_drop_left hz, ← toMul_cons]
    exact ih (List.pairwise_cons.mp h1).2 h2
  | case4 m ms o os h h0 ih =>
    intro h1 h2
    have hk : m.1 = o.1 := (bcmp_eq_zero_iff m.1 o.1).mp h0
    have hm : Multiset.count m.1 (toMul ms) = 0 := by
      refine count_toMul_eq_zero ?_
      intro z hz
      have hlt : keyLt m z := (List.pairwise_cons.mp h1).1 z hz
      unfold keyLt at hlt
      exact Ne.symm (ne_of_bcmp_lt hlt)
    have ho : Multiset.count m.1 (toMul os) = 0 := by
      refine count_toMul_eq_zero ?_
      intro z hz
      have hlt : keyLt o z := (List.pairwise_cons.mp h2).1 z hz
      unfold keyLt at hlt
      have hne := ne_of_bcmp_lt hlt
      rw [← hk] at hne
      exact Ne.symm hne
    simp only [isectCnt, if_neg h, if_pos h0, toMul_cons]
    rw [← hk, inter_replicate_both hm ho, Multiset.card_add,
      Multiset.card_replicate]
    rw [ih (List.pairwise_cons.mp h1).2 (List.pairwise_cons.mp h2).2]
  | case5 m ms o os h h0 ih =>
    intro h1 h2
    have hom : bcmp o.1 m.1 < 0 := by
      rw [bcmp_swap_neg]
      omega
    have hz : Multiset.count o.1 (toMul (m :: ms)) = 0 := by
      refine count_toMul_eq_zero ?_
      intro z hz
      rw [List.mem_cons] at hz
      rcases hz with rfl | hz
      · exact Ne.symm (ne_of_bcmp_lt hom)
      · have hmz : keyLt m z := (List.pairwise_cons.mp h1).1 z hz
        unfold keyLt at hmz
        have hoz : bcmp o.1 z.1 < 0 := by
          rw [bcmp_lt_iff] at hom hmz ⊢
          exact bltB_trans hom hmz
        exact Ne.symm (ne_of_bcmp_lt hoz)
    rw [toMul_cons] at hz
    simp only [isectCnt, if_neg h, if_neg h0, toMul_cons]
    rw [inter_drop_right hz, ← toMul_cons]
    exact ih h1 (List.pairwise_cons.mp h2).2

/-- The intersection size computed by the counted representation is the
cardinality of the mathematical multiset intersection. -/
theorem intersect_size_eq {a b : bigrams} (ha : WF a) (hb : WF b) :
    intersect_size a b = Multiset.card (toMul a.m_impl ∩ toMul b.m_impl) :=
  isectCnt_eq_card_inter ha.1 hb.1

theorem intersect_size_le {a b : bigrams} (ha : WF a) (hb : WF b) :
    intersect_size a b ≤ a.m_size ∧ intersect_size a b ≤ b.m_size := by
  constructor
  · rw [ha.2.2]
    exact isectCnt_le_left a.m_impl b.m_impl
  · rw [hb.2.2]
    exact isectCnt_le_right a.m_impl b.m_impl

/-- Value of the SDC as a plain conditional on the computed intersection
size and the stored sizes. -/
theorem sorensen_dice_coef_eq (a b : bigrams) :
    sorensen_dice_coef a b =
      if intersect_size a b ≠ 0 then
        2 * (intersect_size a b : ℚ) / ((a.m_size : ℚ) + (b.m_size : ℚ))
      else 0 := rfl

theorem sdc_nonneg (a b : bigrams) : 0 ≤ sorensen_dice_coef a b := by
  rw [sorensen_dice_coef_eq]
  split_ifs with h
  · apply div_nonneg <;> positivity
  · exact le_refl 0

theorem sdc_le_one {a b : bigrams} (ha : WF a) (hb : WF b) :
    sorensen_dice_coef a b ≤ 1 := by
  rw [sorensen_dice_coef_eq]
  split_ifs with h
  · have hle := intersect_size_le ha hb
    have h1 : 1 ≤ intersect_size a b := Nat.one_le_iff_ne_zero.mpr h
    have hpos0 : 0 < a.m_size + b.m_size := by omega
    have hpos : (0 : ℚ) < (a.m_size : ℚ) + (b.m_size : ℚ) := by
      exact_mod_cast hpos0
    rw [div_le_one hpos]
    have h2 : 2 * intersect_size a b ≤ a.m_size + b.m_size := by omega
    exact_mod_cast h2
  · norm_num

theorem intersect_size_eq_zero_left {a b : bigrams} (ha : WF a)
    (h : a.m_size = 0) : intersect_size a b = 0 := by
  unfold intersect_size
  have := isectCnt_le_left a.m_impl b.m_impl
  rw [← ha.2.2, h] at this
  omega

theorem intersect_size_eq_zero_right {a b : bigrams} (hb : WF b)
    (h : b.m_size = 0) : intersect_size a b = 0 := by
  unfold intersect_size
  have := isectCnt_le_right a.m_impl b.m_impl
  rw [← hb.2.2, h] at this
  omega

theorem sdc_empty_left {a b : bigrams} (ha : WF a) (h : a.m_size = 0) :
    sorensen_dice_coef a b = 0 := by
  rw [sorensen_dice_coef_eq, intersect_size_eq_zero_left ha h]
  simp

theorem sdc_empty_right {a b : bigrams} (hb : WF b) (h : b.m_size = 0) :
    sorensen_dice_coef a b = 0 := by
  rw [sorensen_dice_coef_eq, intersect_size_eq_zero_right hb h]
  simp

end bigrams

/-! Lemmas about the element-level `std::set_intersection` counting loop. -/

theorem msIsectCnt_le_left :
    ∀ (l1 l2 : List Bigram), msIsectCnt l1 l2 ≤ l1.length := by
  intro l1 l2
  induction l1, l2 using msIsectCnt.induct with
  | case1 l2 => simp [msIsectCnt]
  | case2 a as => simp [msIsectCnt]
  | case3 a as b bs h ih =>
    simp only [msIsectCnt, if_pos h, List.length_cons]
    omega
  | case4 a as b bs h h0 ih =>
    simp only [msIsectCnt, if_neg h, if_pos h0]
    exact ih
  | case5 a as b bs h h0 ih =>
    simp only [msIsectCnt, if_neg h, if_neg h0, List.length_cons]
    omega

theorem msIsectCnt_le_right :
    ∀ (l1 l2 : List Bigram), msIsectCnt l1 l2 ≤ l2.length := by
  intro l1 l2
  induction l1, l2 using msIsectCnt.induct with
  | case1 l2 => simp [msIsectCnt]
  | case2 a as => simp [msIsectCnt]
  | case3 a as b bs h ih =>
    simp only [msIsectCnt, if_pos h]
    exact ih
  | case4 a as b bs h h0 ih =>
    simp only [msIsectCnt, if_neg h, if_pos h0, List.length_cons]
    omega
  | case5 a as b bs h h0 ih =>
    simp only [msIsectCnt, if_neg h, if_neg h0, List.length_cons]
    omega

theorem inter_cons_left_zero {a : Bigram} {m1 m2 : Multiset Bigram}
    (h : Multiset.count a m2 = 0) : (a ::ₘ m1) ∩ m2 = m1 ∩ m2 := by
  ext x
  by_cases hx : x = a
  · subst hx
    simp [Multiset.count_inter, h]
  · simp [Multiset.count_inter, Multiset.count_cons, hx]

theorem inter_cons_right_zero {b : Bigram} {m1 m2 : Multiset Bigram}
    (h : Multiset.count b m1 = 0) : m1 ∩ (b ::ₘ m2) = m1 ∩ m2 := by
  ext x
  by_cases hx : x = b
  · subst hx
    simp [Multiset.count_inter, h]
  · simp [Multiset.count_inter, Multiset.count_cons, hx]

theorem inter_cons_cons {a : Bigram} {m1 m2 : Multiset Bigram} :
    (a ::ₘ m1) ∩ (a ::ₘ m2) = a ::ₘ (m1 ∩ m2) := by
  ext x
  simp only [Multiset.count_inter, Multiset.count_cons]
  omega

theorem not_mem_of_blt_sorted {a b : Bigram} {bs : List Bigram}
    (hab : bltB a b) (hs : (b :: bs).Sorted bleB) : a ∉ b :: bs := by
  intro hmem
  rw [List.mem_cons] at hmem
  rcases hmem with rfl | hmem
  · unfold bltB at hab
    omega
  · have hle : bleB b a := (List.pairwise_cons.mp hs).1 a hmem
    unfold bltB at hab
    unfold bleB at hle
    omega

theorem msIsectCnt_eq_card_inter :
    ∀ {l1 l2 : List Bigram}, l1.Sorted bleB → l2.Sorted bleB →
    msIsectCnt l1 l2 = Multiset.card ((↑l1 : Multiset Bigram) ∩ ↑l2) := by
  intro l1 l2
  induction l1, l2 using msIsectCnt.induct with
  | case1 l2 =>
    intro _ _
    simp [msIsectCnt]
  | case2 a as =>
    intro _ _
    simp [msIsectCnt]
  | case3 a as b bs h ih =>
    intro h1 h2
    have hz : Multiset.count a (↑(b :: bs) : Multiset Bigram) = 0 := by
      rw [Multiset.count_eq_zero]
      intro hmem
      exact not_mem_of_blt_sorted h h2 (by exact_mod_cast hmem)
    simp only [msIsectCnt, if_pos h, ← Multiset.cons_coe]
    rw [← Multiset.cons_coe] at hz
    rw [inter_cons_left_zero hz, Multiset.cons_coe]
    exact ih (List.pairwise_cons.mp h1).2 h2
  | case4 a as b bs h h0 ih =>
    intro h1 h2
    have hz : Multiset.count b (↑(a :: as) : Multiset Bigram) = 0 := by
      rw [Multiset.count_eq_zero]
      intro hmem
      exact not_mem_of_blt_sorted h0 h1 (by exact_mod_cast hmem)
    simp only [msIsectCnt, if_neg h, if_pos h0, ← Multiset.cons_coe]
    rw [← Multiset.cons_coe] at hz
    rw [inter_cons_right_zero hz, Multiset.cons_coe]
    exact ih h1 (List.pairwise_cons.mp h2).2
  | case5 a as b bs h h0 ih =>
    intro h1 h2
    have hab : a = b := eq_of_not_bltB h h0
    subst hab
    simp only [msIsectCnt, if_neg h, if_neg h0, ← Multiset.cons_coe]
    rw [inter_cons_cons, Multiset.card_cons]
    rw [ih (List.pairwise_cons.mp h1).2 (List.pairwise_cons.mp h2).2]
    omega

namespace bigram_multiset

/-! Lemmas about the ordered (sorted) multiset representation. -/

theorem sorted_foldl_insert :
    ∀ (xs : List Bigram) {l : List Bigram}, l.Sorted bleB →
    (xs.foldl (fun l b => l.orderedInsert bleB b) l).Sorted bleB := by
  intro xs
  induction xs with
  | nil =>
    intro l hl
    exact hl
  | cons x xs ih =>
    intro l hl
    rw [List.foldl_cons]
    exact ih (hl.orderedInsert x l)

theorem length_foldl_insert :
    ∀ (xs : List Bigram) (l : List Bigram),
    (xs.foldl (fun l b => l.orderedInsert bleB b) l).length
      = l.length + xs.length := by
  intro xs
  induction xs with
  | nil =>
    intro l
    simp
  | cons x xs ih =>
    intro l
    rw [List.foldl_cons, ih, List.orderedInsert_length]
    simp
    omega

theorem coe_foldl_insert :
    ∀ (xs : List Bigram) (l : List Bigram),
    (↑(xs.foldl (fun l b => l.orderedInsert bleB b) l) : Multiset Bigram)
      = ↑l + ↑xs := by
  intro xs
  induction xs with
  | nil =>
    intro l
    simp
  | cons x xs ih =>
    intro l
    rw [List.foldl_cons, ih]
    have hp : (↑(l.orderedInsert bleB x) : Multiset Bigram) = ↑(x :: l) :=
      Quot.sound (List.perm_orderedInsert bleB x l)
    rw [hp, ← Multiset.cons_coe, ← Multiset.cons_coe]
    rw [Multiset.cons_add, Multiset.add_cons]

theorem sorted_ofString (s : List ℕ) : (ofString s).m_impl.Sorted bleB :=
  sorted_foldl_insert (adjPairs s) List.sorted_nil

theorem ms_size_ofString (s : List ℕ) : (ofString s).size = s.length - 1 := by
  show ((adjPairs s).foldl (fun l b => l.orderedInsert bleB b) []).length
    = s.length - 1
  rw [length_foldl_insert]
  simp [adjPairs]

theorem ms_coe_ofString (s : List ℕ) :
    (↑(ofString s).m_impl : Multiset Bigram) = ↑(adjPairs s) := by
  show (↑((adjPairs s).foldl (fun l b => l.orderedInsert bleB b) [])
    : Multiset Bigram) = ↑(adjPairs s)
  rw [coe_foldl_insert]
  simp

theorem ms_impl_empty_of_size_zero {a : bigram_multiset} (h : a.size = 0) :
    a.m_impl = [] := by
  unfold size at h
  exact List.length_eq_zero.mp h

theorem ms_size_plusEq (a b : bigram_multiset) :
    (plusEq a b).size = a.size + b.size := by
  unfold plusEq
  split_ifs with h
  · rw [h, Nat.zero_add]
  · show (b.m_impl.foldl (fun l x => l.orderedInsert bleB x) a.m_impl).length
      = a.size + b.size
    rw [length_foldl_insert]
    rfl

theorem ms_coe_plusEq (a b : bigram_multiset) :
    (↑(plusEq a b).m_impl : Multiset Bigram) = ↑a.m_impl + ↑b.m_impl := by
  unfold plusEq
  split_ifs with h
  · rw [ms_impl_empty_of_size_zero h]
    simp
  · show (↑(b.m_impl.foldl (fun l x => l.orderedInsert bleB x) a.m_impl)
      : Multiset Bigram) = _
    rw [coe_foldl_insert]

theorem sorted_plusEq {a b : bigram_multiset} (ha : a.m_impl.Sorted bleB)
    (hb : b.m_impl.Sorted bleB) : (plusEq a b).m_impl.Sorted bleB := by
  unfold plusEq
  split_ifs with h
  · exact hb
  · exact sorted_foldl_insert b.m_impl ha

theorem ms_size_add (a b : bigram_multiset) :
    (add a b).size = a.size + b.size := by
  show (plusEq b a).size = _
  rw [ms_size_plusEq, Nat.add_comm]

theorem ms_coe_add (a b : bigram_multiset) :
    (↑(add a b).m_impl : Multiset Bigram) = ↑a.m_impl + ↑b.m_impl := by
  show (↑(plusEq b a).m_impl : Multiset Bigram) = _
  rw [ms_coe_plusEq, add_comm]

theorem sorted_add {a b : bigram_multiset} (ha : a.m_impl.Sorted bleB)
    (hb : b.m_impl.Sorted bleB) : (add a b).m_impl.Sorted bleB :=
  sorted_plusEq hb ha

theorem ms_size_unite :
    ∀ {l : List bigram_multiset} {a : bigram_multiset},
    (unite a l).size = a.size + (l.map size).sum := by
  intro l
  induction l with
  | nil =>
    intro a
    simp [unite]
  | cons r rs ih =>
    intro a
    show (plusEq (unite r rs) a).size = _
    rw [ms_size_plusEq, ih]
    simp
    ring

theorem ms_intersect_size_le (a b : bigram_multiset) :
    intersect_size a b ≤ a.size ∧ intersect_size a b ≤ b.size :=
  ⟨msIsectCnt_le_left a.m_impl b.m_impl, msIsectCnt_le_right a.m_impl b.m_impl⟩

/-- The intersection size of two (sorted) ordered multisets is the
cardinality of the mathematical multiset intersection. -/
theorem ms_intersect_size_eq {a b : bigram_multiset}
    (ha : a.m_impl.Sorted bleB) (hb : b.m_impl.Sorted bleB) :
    intersect_size a b
      = Multiset.card ((↑a.m_impl : Multiset Bigram) ∩ ↑b.m_impl) :=
  msIsectCnt_eq_card_inter ha hb

theorem ms_sorensen_dice_coef_eq (a b : bigram_multiset) :
    sorensen_dice_coef a b =
      if intersect_size a b ≠ 0 then
        2 * (intersect_size a b : ℚ) / ((a.size : ℚ) + (b.size : ℚ))
      else 0 := rfl

theorem ms_sdc_nonneg (a b : bigram_multiset) : 0 ≤ sorensen_dice_coef a b := by
  rw [ms_sorensen_dice_coef_eq]
  split_ifs with h
  · apply div_nonneg <;> positivity
  · exact le_refl 0

theorem ms_sdc_le_one (a b : bigram_multiset) : sorensen_dice_coef a b ≤ 1 := by
  rw [ms_sorensen_dice_coef_eq]
  split_ifs with h
  · have hle := ms_intersect_size_le a b
    have h1 : 1 ≤ intersect_size a b := Nat.one_le_iff_ne_zero.mpr h
    have hpos0 : 0 < a.size + b.size := by omega
    have hpos : (0 : ℚ) < (a.size : ℚ) + (b.size : ℚ) := by exact_mod_cast hpos0
    rw [div_le_one hpos]
    have h2 : 2 * intersect_size a b ≤ a.size + b.size := by omega
    exact_mod_cast h2
  · norm_num

theorem ms_sdc_empty_left {a : bigram_multiset} (b : bigram_multiset)
    (h : a.size = 0) : sorensen_dice_coef a b = 0 := by
  have h0 : intersect_size a b = 0 := by
    have := msIsectCnt_le_left a.m_impl b.m_impl
    unfold size at h
    unfold intersect_size
    omega
  rw [ms_sorensen_dice_coef_eq, h0]
  simp

theorem ms_sdc_empty_right (a : bigram_multiset) {b : bigram_multiset}
    (h : b.size = 0) : sorensen_dice_coef a b = 0 := by
  have h0 : intersect_size a b = 0 := by
    have := msIsectCnt_le_right a.m_impl b.m_impl
    unfold size at h
    unfold intersect_size
    omega
  rw [ms_sorensen_dice_coef_eq, h0]
  simp

end bigram_multiset

namespace unordered_bigram_multiset

/-! Lemmas about the hashed multiset representation. -/

theorem ums_size_ofString (s : List ℕ) : (ofString s).size = s.length - 1 := by
  show (adjPairs s).length = s.length - 1
  simp [adjPairs]

theorem ums_coe_ofString (s : List ℕ) :
    (↑(ofString s).m_impl : Multiset Bigram) = ↑(adjPairs s) := rfl

theorem ums_impl_empty_of_size_zero {a : unordered_bigram_multiset}
    (h : a.size = 0) : a.m_impl = [] := by
  unfold size at h
  exact List.length_eq_zero.mp h

theorem ums_size_plusEq (a b : unordered_bigram_multiset) :
    (plusEq a b).size = a.size + b.size := by
  unfold plusEq
  split_ifs with h
  · rw [h, Nat.zero_add]
  · show (a.m_impl ++ b.m_impl).length = _
    simp [size]

theorem ums_coe_plusEq (a b : unordered_bigram_multiset) :
    (↑(plusEq a b).m_impl : Multiset Bigram) = ↑a.m_impl + ↑b.m_impl := by
  unfold plusEq
  split_ifs with h
  · rw [ums_impl_empty_of_size_zero h]
    simp
  · show (↑(a.m_impl ++ b.m_impl) : Multiset Bigram) = _
    simp

theorem ums_size_add (a b : unordered_bigram_multiset) :
    (add a b).size = a.size + b.size := by
  show (plusEq b a).size = _
  rw [ums_size_plusEq, Nat.add_comm]

theorem ums_coe_add (a b : unordered_bigram_multiset) :
    (↑(add a b).m_impl : Multiset Bigram) = ↑a.m_impl + ↑b.m_impl := by
  show (↑(plusEq b a).m_impl : Multiset Bigram) = _
  rw [ums_coe_plusEq, add_comm]

theorem ums_size_unite :
    ∀ {l : List unordered_bigram_multiset} {a : unordered_bigram_multiset},
    (unite a l).size = a.size + (l.map size).sum := by
  intro l
  induction l with
  | nil =>
    intro a
    simp [unite]
  | cons r rs ih =>
    intro a
    show (plusEq (unite r rs) a).size = _
    rw [ums_size_plusEq, ih]
    simp
    ring

theorem ums_intersect_size_le (a b : unordered_bigram_multiset) :
    intersect_size a b ≤ a.size ∧ intersect_size a b ≤ b.size :=
  ⟨msIsectCnt_le_left a.m_impl b.m_impl, msIsectCnt_le_right a.m_impl b.m_impl⟩

theorem ums_sorensen_dice_coef_eq (a b : unordered_bigram_multiset) :
    sorensen_dice_coef a b =
      if intersect_size a b ≠ 0 then
        2 * (intersect_size a b : ℚ) / ((a.size : ℚ) + (b.size : ℚ))
      else 0 := rfl

theorem ums_sdc_nonneg (a b : unordered_bigram_multiset) :
    0 ≤ sorensen_dice_coef a b := by
  rw [ums_sorensen_dice_coef_eq]
  split_ifs with h
  · apply div_nonneg <;> positivity
  · exact le_refl 0

theorem ums_sdc_le_one (a b : unordered_bigram_multiset) :
    sorensen_dice_coef a b ≤ 1 := by
  rw [ums_sorensen_dice_coef_eq]
  split_ifs with h
  · have hle := ums_intersect_size_le a b
    have h1 : 1 ≤ intersect_size a b := Nat.one_le_iff_ne_zero.mpr h
    have hpos0 : 0 < a.size + b.size := by omega
    have hpos : (0 : ℚ) < (a.size : ℚ) + (b.size : ℚ) := by exact_mod_cast hpos0
    rw [div_le_one hpos]
    have h2 : 2 * intersect_size a b ≤ a.size + b.size := by omega
    exact_mod_cast h2
  · norm_num

theorem ums_sdc_empty_left {a : unordered_bigram_multiset}
    (b : unordered_bigram_multiset) (h : a.size = 0) :
    sorensen_dice_coef a b = 0 := by
  have h0 : intersect_size a b = 0 := by
    have := msIsectCnt_le_left a.m_impl b.m_impl
    unfold size at h
    unfold intersect_size
    omega
  rw [ums_sorensen_dice_coef_eq, h0]
  simp

theorem ums_sdc_empty_right (a : unordered_bigram_multiset)
    {b : unordered_bigram_multiset} (h : b.size = 0) :
    sorensen_dice_coef a b = 0 := by
  have h0 : intersect_size a b = 0 := by
    have := msIsectCnt_le_right a.m_impl b.m_impl
    unfold size at h
    unfold intersect_size
    omega
  rw [ums_sorensen_dice_coef_eq, h0]
  simp

end unordered_bigram_multiset

namespace sequence_matcher

/-! Basic matcher lemmas. -/

theorem WF_prof0 {m : sequence_matcher} (hm : ∀ p ∈ m, bigrams.WF p.1)
    (j : ℕ) : bigrams.WF (prof0 m j) := by
  unfold prof0
  by_cases h : j < m.length
  · refine hm _ ?_
    rw [List.getD_eq_getElem m (default, false) h]
    exact List.getElem_mem h
  · rw [List.getD_eq_default m (default, false) (by omega)]
    exact bigrams.WF_empty

/-- Claim C1, size part: the recursive split computes the sum of the
row-0 profile sizes over the window (no well-formedness is needed, since
out-of-range cells read the default empty profile). -/
theorem bigrams_size_eq_sum (m : sequence_matcher) :
    ∀ i j, bigrams_size m i j
      = ∑ k ∈ Finset.range (i + 1), (prof0 m (j + k)).m_size := by
  intro i j
  induction i, j using bigrams_size.induct m with
  | case1 j =>
    rw [bigrams_size]
    simp
  | case2 i j hi ih1 ih2 =>
    rw [bigrams_size]
    rw [if_neg hi]
    rw [ih1, ih2]
    have hsplit : i + 1 = (i / 2 + 1) + (i - i / 2 - 1 + 1) := by
      omega
    conv_rhs => rw [hsplit, Finset.sum_range_add]
    have harg : ∀ k : ℕ, j + (i / 2 + 1 + k) = j + i / 2 + 1 + k := by
      intro k
      omega
    simp only [harg]

theorem WF_bigrams_at {m : sequence_matcher} (hm : ∀ p ∈ m, bigrams.WF p.1) :
    ∀ i j, bigrams.WF (bigrams_at m i j) := by
  intro i j
  induction i, j using bigrams_at.induct m with
  | case1 j =>
    rw [bigrams_at]
    simp only [if_pos rfl]
    exact WF_prof0 hm j
  | case2 i j hi ih1 ih2 =>
    rw [bigrams_at, if_neg hi]
    exact bigrams.WF_add ih1 ih2

theorem m_size_bigrams_at {m : sequence_matcher}
    (hm : ∀ p ∈ m, bigrams.WF p.1) :
    ∀ i j, (bigrams_at m i j).m_size = bigrams_size m i j := by
  intro i j
  induction i, j using bigrams_at.induct m with
  | case1 j =>
    rw [bigrams_at, bigrams_size]
    simp
  | case2 i j hi ih1 ih2 =>
    rw [bigrams_at, bigrams_size, if_neg hi, if_neg hi]
    rw [bigrams.m_size_add (WF_bigrams_at hm _ _) (WF_bigrams_at hm _ _)]
    rw [ih1, ih2]

/-- Claim C1, profile part: the recursive split computes the multiset
union of the row-0 profiles over the window. -/
theorem toMul_bigrams_at {m : sequence_matcher}
    (hm : ∀ p ∈ m, bigrams.WF p.1) :
    ∀ i j, bigrams.toMul (bigrams_at m i j).m_impl
      = ∑ k ∈ Finset.range (i + 1), bigrams.toMul (prof0 m (j + k)).m_impl := by
  intro i j
  induction i, j using bigrams_at.induct m with
  | case1 j =>
    rw [bigrams_at]
    simp
  | case2 i j hi ih1 ih2 =>
    rw [bigrams_at, if_neg hi]
    rw [bigrams.toMul_add (WF_bigrams_at hm _ _)]
    rw [ih1, ih2]
    have hsplit : i + 1 = (i / 2 + 1) + (i - i / 2 - 1 + 1) := by
      omega
    conv_rhs => rw [hsplit, Finset.sum_range_add]
    have harg : ∀ k : ℕ, j + (i / 2 + 1 + k) = j + i / 2 + 1 + k := by
      intro k
      omega
    simp only [harg]

theorem bigrams_size_mono (m : sequence_matcher) {i i' j : ℕ} (h : i ≤ i') :
    bigrams_size m i j ≤ bigrams_size m i' j := by
  rw [bigrams_size_eq_sum, bigrams_size_eq_sum]
  refine Finset.sum_le_sum_of_subset ?_
  intro k hk
  rw [Finset.mem_range] at hk ⊢
  omega

end sequence_matcher

namespace sequence_matcher

/-! Soundness of the cardinality-ratio pruning. -/

theorem ratio_prune_bound {θ mn mx s : ℚ} (hθ : 0 < θ) (hmn : 0 < mn)
    (hmx : 0 ≤ mx) (hs : 0 ≤ s) (hsle : s ≤ mn) (hr : 2 / θ - 1 < mx / mn) :
    2 * s / (mn + mx) < θ := by
  have hθ0 : θ ≠ 0 := ne_of_gt hθ
  have h1 : (2 / θ - 1) * mn < mx := (lt_div_iff hmn).mp hr
  have h2 : (2 / θ - 1) * mn * θ = 2 * mn - θ * mn := by
    field_simp
    ring
  have h3 : (2 / θ - 1) * mn * θ < mx * θ := mul_lt_mul_of_pos_right h1 hθ
  rw [h2] at h3
  have hsum : 0 < mn + mx := by linarith
  rw [div_lt_iff hsum]
  nlinarith

/-- If the cardinality-ratio check prunes the cell (either `continue` or
`break`), the Sørensen-Dice coefficient of the two profiles is strictly
below the threshold. -/
theorem sdc_lt_of_prune {a b : bigrams} (ha : bigrams.WF a)
    (hb : bigrams.WF b) {θ : ℚ} (hθ : 0 < θ) {d : Bool}
    (hp : cardRatioPrune a.m_size b.m_size (cardRatioBound θ) = some d) :
    bigrams.sorensen_dice_coef a b < θ := by
  have hθ0 : θ ≠ 0 := ne_of_gt hθ
  by_cases hA : b.m_size = 0
  · rw [bigrams.sdc_empty_right hb hA]
    exact hθ
  by_cases hB : a.m_size = 0
  · rw [bigrams.sdc_empty_left ha hB]
    exact hθ
  rw [cardRatioBound, if_neg hθ0] at hp
  simp only [cardRatioPrune] at hp
  rw [if_neg hA, if_neg hB] at hp
  have hle := bigrams.intersect_size_le ha hb
  rw [bigrams.sorensen_dice_coef_eq]
  split_ifs with hi
  · have hs0 : (0 : ℚ) ≤ (bigrams.intersect_size a b : ℚ) := by positivity
    by_cases hcmp : a.m_size < b.m_size
    · rw [if_pos hcmp] at hp
      have hr : 2 / θ - 1 < (b.m_size : ℚ) / (a.m_size : ℚ) := by
        by_contra hcon
        rw [if_neg hcon] at hp
        exact Option.noConfusion hp
      have hmn : (0 : ℚ) < (a.m_size : ℚ) := by
        exact_mod_cast Nat.pos_of_ne_zero hB
      have hsle : (bigrams.intersect_size a b : ℚ) ≤ (a.m_size : ℚ) := by
        exact_mod_cast hle.1
      have hmx : (0 : ℚ) ≤ (b.m_size : ℚ) := by positivity
      exact ratio_prune_bound hθ hmn hmx hs0 hsle hr
    · rw [if_neg hcmp] at hp
      have hr : 2 / θ - 1 < (a.m_size : ℚ) / (b.m_size : ℚ) := by
        by_contra hcon
        rw [if_neg hcon] at hp
        exact Option.noConfusion hp
      have hmn : (0 : ℚ) < (b.m_size : ℚ) := by
        exact_mod_cast Nat.pos_of_ne_zero hA
      have hsle : (bigrams.intersect_size a b : ℚ) ≤ (b.m_size : ℚ) := by
        exact_mod_cast hle.2
      have hmx : (0 : ℚ) ≤ (a.m_size : ℚ) := by positivity
      have hres := ratio_prune_bound hθ hmn hmx hs0 hsle hr
      have hcomm : (a.m_size : ℚ) + (b.m_size : ℚ)
          = (b.m_size : ℚ) + (a.m_size : ℚ) := by ring
      rw [hcomm]
      exact hres
  · exact hθ

/-- Once the ratio check breaks out of the row scan, it breaks for every
larger sub-sequence size as well (the ratio only grows). -/
theorem prune_break_mono {B B' A : ℕ} {bnd : Option ℚ}
    (hp : cardRatioPrune B A bnd = some false) (hBB : B ≤ B') :
    cardRatioPrune B' A bnd = some false := by
  cases bnd with
  | none => exact absurd hp (by simp [cardRatioPrune])
  | some b =>
    simp only [cardRatioPrune] at hp ⊢
    by_cases hA : A = 0
    · rw [if_pos hA] at hp ⊢
      by_cases hB : B = 0
      · rw [if_pos hB] at hp
        exact Option.noConfusion hp
      · have hB' : ¬ B' = 0 := by omega
        rw [if_neg hB']
    · rw [if_neg hA] at hp ⊢
      by_cases hB : B = 0
      · rw [if_pos hB] at hp
        simp at hp
      · rw [if_neg hB] at hp
        have hB' : ¬ B' = 0 := by omega
        rw [if_neg hB']
        by_cases hcmp : B < A
        · rw [if_pos hcmp] at hp
          split_ifs at hp with h1
          simp at hp
        · rw [if_neg hcmp] at hp
          have h1 : b < (B : ℚ) / (A : ℚ) := by
            by_contra hcon
            rw [if_neg hcon] at hp
            exact Option.noConfusion hp
          have hcmp' : ¬ B' < A := by omega
          rw [if_neg hcmp']
          have hA0 : (0 : ℚ) < (A : ℚ) := by
            exact_mod_cast Nat.pos_of_ne_zero hA
          have h2 : (B : ℚ) / (A : ℚ) ≤ (B' : ℚ) / (A : ℚ) := by
            gcongr <;> exact_mod_cast hBB
          rw [if_pos (lt_of_lt_of_le h1 h2)]

end sequence_matcher

namespace sequence_matcher

theorem sdc_lt_of_prune_cell {m : sequence_matcher} {Q : bigrams} {θ : ℚ}
    (hm : ∀ p ∈ m, bigrams.WF p.1) (hQ : bigrams.WF Q) (hθ : 0 < θ)
    {i j : ℕ} {d : Bool}
    (hp : cardRatioPrune (bigrams_size m i j) Q.m_size (cardRatioBound θ)
      = some d) :
    bigrams.sorensen_dice_coef (bigrams_at m i j) Q < θ := by
  have hc : (bigrams_at m i j).m_size = bigrams_size m i j :=
    m_size_bigrams_at hm i j
  rw [← hc] at hp
  exact sdc_lt_of_prune (WF_bigrams_at hm i j) hQ hθ hp

/-- After a `break` of the inner loop at row `i`, every cell of the same
column with row index at least `i` is below the threshold. -/
theorem break_row {m : sequence_matcher} {Q : bigrams} {θ : ℚ}
    (hm : ∀ p ∈ m, bigrams.WF p.1) (hQ : bigrams.WF Q) (hθ : 0 < θ)
    {i j : ℕ}
    (hp : cardRatioPrune (bigrams_size m i j) Q.m_size (cardRatioBound θ)
      = some false) :
    ∀ i', i ≤ i' →
      bigrams.sorensen_dice_coef (bigrams_at m i' j) Q < θ := by
  intro i' hii
  exact sdc_lt_of_prune_cell hm hQ hθ
    (prune_break_mono hp (bigrams_size_mono m hii))

/-- Characterisation of the inner loop of `next_match`: a `some` result is
the least qualifying row index from the start index on, with the recorded
SDC; a `none` result signals that no row index from the start on
qualifies. -/
theorem scanI_spec {m : sequence_matcher} {Q : bigrams} {θ : ℚ}
    (hm : ∀ p ∈ m, bigrams.WF p.1) (hQ : bigrams.WF Q) (hθ : 0 < θ)
    (j : ℕ) :
    ∀ i0 s0,
      (∀ i', (scanI m Q θ j i0 s0).1 = some i' →
        i0 ≤ i' ∧ QualRow m Q θ j i' ∧
        (scanI m Q θ j i0 s0).2
          = bigrams.sorensen_dice_coef (bigrams_at m i' j) Q ∧
        ∀ k, i0 ≤ k → k < i' → ¬ QualRow m Q θ j k) ∧
      ((scanI m Q θ j i0 s0).1 = none →
        ∀ k, i0 ≤ k → ¬ QualRow m Q θ j k) := by
  intro i0 s0
  induction i0, s0 using scanI.induct m Q θ j with
  | case1 i s hlt hstrip ih =>
    have hres : scanI m Q θ j i s = scanI m Q θ j (i + 1) s := by
      rw [scanI, if_pos hlt, if_pos hstrip]
    have hqi : ¬ QualRow m Q θ j i := by
      intro hq
      rw [hq.2.1] at hstrip
      exact Bool.noConfusion hstrip
    constructor
    · intro i' hsome
      rw [hres] at hsome ⊢
      obtain ⟨h1, h2, h3, h4⟩ := ih.1 i' hsome
      refine ⟨by omega, h2, h3, ?_⟩
      intro k hk1 hk2
      by_cases hki : k = i
      · subst hki
        exact hqi
      · exact h4 k (by omega) hk2
    · intro hnone k hk
      rw [hres] at hnone
      by_cases hki : k = i
      · subst hki
        exact hqi
      · exact ih.2 hnone k (by omega)
  | case2 i s hlt hstrip hpr ih =>
    have hres : scanI m Q θ j i s = scanI m Q θ j (i + 1) s := by
      rw [scanI, if_pos hlt, if_neg hstrip, hpr]
    have hqi : ¬ QualRow m Q θ j i := by
      intro hq
      have := sdc_lt_of_prune_cell hm hQ hθ hpr
      have := hq.2.2
      linarith
    constructor
    · intro i' hsome
      rw [hres] at hsome ⊢
      obtain ⟨h1, h2, h3, h4⟩ := ih.1 i' hsome
      refine ⟨by omega, h2, h3, ?_⟩
      intro k hk1 hk2
      by_cases hki : k = i
      · subst hki
        exact hqi
      · exact h4 k (by omega) hk2
    · intro hnone k hk
      rw [hres] at hnone
      by_cases hki : k = i
      · subst hki
        exact hqi
      · exact ih.2 hnone k (by omega)
  | case3 i s hlt hstrip hpr =>
    have hres : scanI m Q θ j i s = (none, s) := by
      rw [scanI, if_pos hlt, if_neg hstrip, hpr]
    constructor
    · intro i' hsome
      rw [hres] at hsome
      exact Option.noConfusion hsome
    · intro _ k hk
      intro hq
      have := break_row hm hQ hθ hpr k hk
      have := hq.2.2
      linarith
  | case4 i s hlt hstrip hpr hslt ih =>
    have hres : scanI m Q θ j i s
        = scanI m Q θ j (i + 1)
            (bigrams.sorensen_dice_coef (bigrams_at m i j) Q) := by
      rw [scanI, if_pos hlt, if_neg hstrip, hpr, if_pos hslt]
    have hqi : ¬ QualRow m Q θ j i := by
      intro hq
      have := hq.2.2
      linarith
    constructor
    · intro i' hsome
      rw [hres] at hsome ⊢
      obtain ⟨h1, h2, h3, h4⟩ := ih.1 i' hsome
      refine ⟨by omega, h2, h3, ?_⟩
      intro k hk1 hk2
      by_cases hki : k = i
      · subst hki
        exact hqi
      · exact h4 k (by omega) hk2
    · intro hnone k hk
      rw [hres] at hnone
      by_cases hki : k = i
      · subst hki
        exact hqi
      · exact ih.2 hnone k (by omega)
  | case5 i s hlt hstrip hpr hslt =>
    have hres : scanI m Q θ j i s
        = (some i, bigrams.sorensen_dice_coef (bigrams_at m i j) Q) := by
      rw [scanI, if_pos hlt, if_neg hstrip, hpr, if_neg hslt]
    have hstripf : stripAt m (j + i) = false := by
      revert hstrip
      cases stripAt m (j + i) <;> simp
    constructor
    · intro i' hsome
      rw [hres] at hsome ⊢
      have hii : i = i' := Option.some.inj hsome
      subst hii
      refine ⟨le_refl i, ⟨by omega, hstripf, not_lt.mp hslt⟩, rfl, ?_⟩
      intro k hk1 hk2
      omega
    · intro hnone
      rw [hres] at hnone
      exact Option.noConfusion hnone
  | case6 i s hlt =>
    have hres : scanI m Q θ j i s = (none, s) := by
      rw [scanI, if_neg hlt]
    constructor
    · intro i' hsome
      rw [hres] at hsome
      exact Option.noConfusion hsome
    · intro _ k hk
      intro hq
      have := hq.1
      omega

end sequence_matcher

namespace sequence_matcher

/-- Characterisation of `next_match`: started at `(j0, i0)` (with the
invariants the matcher maintains: the start column is at most the size,
and a non-zero start row only occurs at a non-strip column strictly
inside the sequence), the scan either ends in the state `(0, size)` with
no qualifying cell at or after the start position, or stops at the least
qualifying cell at or after the start position, recording its SDC.
Positions are ordered lexicographically with the column `j` major. -/
theorem scanJ_spec {m : sequence_matcher} {Q : bigrams} {θ : ℚ}
    (hm : ∀ p ∈ m, bigrams.WF p.1) (hQ : bigrams.WF Q) (hθ : 0 < θ) :
    ∀ n j0 i0 s0, size m - j0 ≤ n → j0 ≤ size m →
    (stripAt m j0 = true → i0 = 0) → (j0 = size m → i0 = 0) →
    ((scanJ m Q θ j0 i0 s0).m_j = size m ∧
       (scanJ m Q θ j0 i0 s0).m_i = 0 ∧
       ∀ j i, (j0 < j ∨ (j0 = j ∧ i0 ≤ i)) → ¬ Qual m Q θ j i) ∨
    ((scanJ m Q θ j0 i0 s0).m_j < size m ∧
       Qual m Q θ (scanJ m Q θ j0 i0 s0).m_j (scanJ m Q θ j0 i0 s0).m_i ∧
       (scanJ m Q θ j0 i0 s0).m_sdc
         = bigrams.sorensen_dice_coef
             (bigrams_at m (scanJ m Q θ j0 i0 s0).m_i
               (scanJ m Q θ j0 i0 s0).m_j) Q ∧
       (j0 < (scanJ m Q θ j0 i0 s0).m_j ∨
         (j0 = (scanJ m Q θ j0 i0 s0).m_j ∧ i0 ≤ (scanJ m Q θ j0 i0 s0).m_i)) ∧
       ∀ j i, (j0 < j ∨ (j0 = j ∧ i0 ≤ i)) →
         (j < (scanJ m Q θ j0 i0 s0).m_j ∨
           (j = (scanJ m Q θ j0 i0 s0).m_j ∧ i < (scanJ m Q θ j0 i0 s0).m_i)) →
         ¬ Qual m Q θ j i) := by
  intro n
  induction n with
  | zero =>
    intro j0 i0 s0 hn hj0 hs0 he0
    have hj : j0 = size m := by omega
    have hi0 : i0 = 0 := he0 hj
    have hres : scanJ m Q θ j0 i0 s0 = ⟨i0, j0, s0⟩ := by
      rw [scanJ, if_neg (by omega : ¬ j0 < size m)]
    left
    rw [hres]
    refine ⟨hj, hi0, ?_⟩
    intro j i hge hq
    have := hq.2.1
    omega
  | succ n ih =>
    intro j0 i0 s0 hn hj0 hs0 he0
    by_cases hjlt : j0 < size m
    · by_cases hstrip : stripAt m j0 = true
      · have hi0 : i0 = 0 := hs0 hstrip
        subst hi0
        have hres : scanJ m Q θ j0 0 s0 = scanJ m Q θ (j0 + 1) 0 s0 := by
          rw [scanJ, if_pos hjlt, if_pos hstrip]
        have IH := ih (j0 + 1) 0 s0 (by omega) (by omega)
          (fun _ => rfl) (fun _ => rfl)
        rw [hres]
        have hrowskip : ∀ i, ¬ Qual m Q θ j0 i := by
          intro i hq
          rw [hq.1] at hstrip
          exact Bool.noConfusion hstrip
        rcases IH with ⟨h1, h2, h3⟩ | ⟨h1, h2, h3, h4, h5⟩
        · left
          refine ⟨h1, h2, ?_⟩
          intro j i hge hq
          by_cases hjj : j = j0
          · subst hjj
            exact hrowskip i hq
          · exact h3 j i (by omega) hq
        · right
          refine ⟨h1, h2, h3, by omega, ?_⟩
          intro j i hge hlt2
          by_cases hjj : j = j0
          · subst hjj
            exact hrowskip i
          · exact h5 j i (by omega) hlt2
      · have hstripf : stripAt m j0 = false := by
          revert hstrip
          cases stripAt m j0 <;> simp
        rcases hsc : scanI m Q θ j0 i0 s0 with ⟨o, s1⟩
        cases o with
        | some i1 =>
          have hres : scanJ m Q θ j0 i0 s0 = ⟨i1, j0, s1⟩ := by
            rw [scanJ, if_pos hjlt, if_neg hstrip, hsc]
          have hspec := scanI_spec hm hQ hθ j0 i0 s0
          have hh := hspec.1 i1 (by rw [hsc])
          have hsdc : s1 = bigrams.sorensen_dice_coef (bigrams_at m i1 j0) Q := by
            have := hh.2.2.1
            rw [hsc] at this
            exact this
          right
          rw [hres]
          dsimp only
          refine ⟨hjlt, ⟨hstripf, hh.2.1⟩, hsdc, Or.inr ⟨rfl, hh.1⟩, ?_⟩
          intro j i hge hlt2
          have hjj : j = j0 ∧ i0 ≤ i ∧ i < i1 := by omega
          obtain ⟨rfl, hi, hilt⟩ := hjj
          intro hq
          exact hh.2.2.2 i hi hilt hq.2
        | none =>
          have hres : scanJ m Q θ j0 i0 s0 = scanJ m Q θ (j0 + 1) 0 s1 := by
            rw [scanJ, if_pos hjlt, if_neg hstrip, hsc]
          have hspec := scanI_spec hm hQ hθ j0 i0 s0
          have hnoQ : ∀ k, i0 ≤ k → ¬ QualRow m Q θ j0 k :=
            hspec.2 (by rw [hsc])
          have IH := ih (j0 + 1) 0 s1 (by omega) (by omega)
            (fun _ => rfl) (fun _ => rfl)
          rw [hres]
          rcases IH with ⟨h1, h2, h3⟩ | ⟨h1, h2, h3, h4, h5⟩
          · left
            refine ⟨h1, h2, ?_⟩
            intro j i hge hq
            by_cases hjj : j = j0
            · subst hjj
              have hi0i : i0 ≤ i := by omega
              exact hnoQ i hi0i hq.2
            · exact h3 j i (by omega) hq
          · right
            refine ⟨h1, h2, h3, by omega, ?_⟩
            intro j i hge hlt2
            by_cases hjj : j = j0
            · subst hjj
              intro hq
              have hi0i : i0 ≤ i := by omega
              exact hnoQ i hi0i hq.2
            · exact h5 j i (by omega) hlt2
    · have hj : j0 = size m := by omega
      have hi0 : i0 = 0 := he0 hj
      have hres : scanJ m Q θ j0 i0 s0 = ⟨i0, j0, s0⟩ := by
        rw [scanJ, if_neg hjlt]
      left
      rw [hres]
      refine ⟨hj, hi0, ?_⟩
      intro j i hge hq
      have := hq.2.1
      omega

end sequence_matcher

namespace sequence_matcher

/-! Iterator-level corollaries. -/

theorem endIter_eq (m : sequence_matcher) : endIter m = ⟨0, size m, 0⟩ := by
  unfold endIter
  rw [scanJ, if_neg (lt_irrefl (size m))]

theorem iterN_zero (m : sequence_matcher) (Q : bigrams) (θ : ℚ) :
    iterN m Q θ 0 = begin m Q θ := rfl

theorem iterN_succ (m : sequence_matcher) (Q : bigrams) (θ : ℚ) (n : ℕ) :
    iterN m Q θ (n + 1) = inc m Q θ (iterN m Q θ n) := by
  unfold iterN
  rw [Function.iterate_succ_apply']

theorem begin_spec {m : sequence_matcher} {Q : bigrams} {θ : ℚ}
    (hm : ∀ p ∈ m, bigrams.WF p.1) (hQ : bigrams.WF Q) (hθ : 0 < θ) :
    ((begin m Q θ).m_j = size m ∧ (begin m Q θ).m_i = 0 ∧
       ∀ j i, ¬ Qual m Q θ j i) ∨
    ((begin m Q θ).m_j < size m ∧
       Qual m Q θ (begin m Q θ).m_j (begin m Q θ).m_i ∧
       (begin m Q θ).m_sdc
         = bigrams.sorensen_dice_coef
             (bigrams_at m (begin m Q θ).m_i (begin m Q θ).m_j) Q ∧
       ∀ j i, (j < (begin m Q θ).m_j ∨
           (j = (begin m Q θ).m_j ∧ i < (begin m Q θ).m_i)) →
         ¬ Qual m Q θ j i) := by
  have h := scanJ_spec hm hQ hθ (size m) 0 0 0 (by omega) (by omega)
    (fun _ => rfl) (fun _ => rfl)
  rcases h with ⟨h1, h2, h3⟩ | ⟨h1, h2, h3, _, h5⟩
  · left
    exact ⟨h1, h2, fun j i => h3 j i (by omega)⟩
  · right
    exact ⟨h1, h2, h3, fun j i hlt => h5 j i (by omega) hlt⟩

theorem inc_spec {m : sequence_matcher} {Q : bigrams} {θ : ℚ}
    (hm : ∀ p ∈ m, bigrams.WF p.1) (hQ : bigrams.WF Q) (hθ : 0 < θ)
    {st : iterator} (hlt : st.m_j < size m)
    (hq : Qual m Q θ st.m_j st.m_i) :
    ((inc m Q θ st).m_j = size m ∧ (inc m Q θ st).m_i = 0 ∧
       ∀ j i, (st.m_j < j ∨ (st.m_j = j ∧ st.m_i + 1 ≤ i)) →
         ¬ Qual m Q θ j i) ∨
    ((inc m Q θ st).m_j < size m ∧
       Qual m Q θ (inc m Q θ st).m_j (inc m Q θ st).m_i ∧
       (inc m Q θ st).m_sdc
         = bigrams.sorensen_dice_coef
             (bigrams_at m (inc m Q θ st).m_i (inc m Q θ st).m_j) Q ∧
       (st.m_j < (inc m Q θ st).m_j ∨
         (st.m_j = (inc m Q θ st).m_j ∧ st.m_i + 1 ≤ (inc m Q θ st).m_i)) ∧
       ∀ j i, (st.m_j < j ∨ (st.m_j = j ∧ st.m_i + 1 ≤ i)) →
         (j < (inc m Q θ st).m_j ∨
           (j = (inc m Q θ st).m_j ∧ i < (inc m Q θ st).m_i)) →
         ¬ Qual m Q θ j i) := by
  have hstrip : stripAt m st.m_j = true → st.m_i + 1 = 0 := by
    intro hs
    rw [hq.1] at hs
    exact Bool.noConfusion hs
  have hend : st.m_j = size m → st.m_i + 1 = 0 := by
    intro he
    omega
  exact scanJ_spec hm hQ hθ (size m) st.m_j (st.m_i + 1) st.m_sdc
    (by omega) (by omega) hstrip hend

/-- Invariant of iterated advancement: every reachable state is either a
reported match (below the end column, at a qualifying cell, with the SDC
cached) or has reached the end column. -/
theorem iterN_inv {m : sequence_matcher} {Q : bigrams} {θ : ℚ}
    (hm : ∀ p ∈ m, bigrams.WF p.1) (hQ : bigrams.WF Q) (hθ : 0 < θ) :
    ∀ n,
    ((iterN m Q θ n).m_j < size m ∧
       Qual m Q θ (iterN m Q θ n).m_j (iterN m Q θ n).m_i ∧
       (iterN m Q θ n).m_sdc
         = bigrams.sorensen_dice_coef
             (bigrams_at m (iterN m Q θ n).m_i (iterN m Q θ n).m_j) Q) ∨
    (iterN m Q θ n).m_j = size m := by
  intro n
  induction n with
  | zero =>
    rw [iterN_zero]
    rcases begin_spec hm hQ hθ with ⟨h1, _, _⟩ | ⟨h1, h2, h3, _⟩
    · right
      exact h1
    · left
      exact ⟨h1, h2, h3⟩
  | succ n ih =>
    rw [iterN_succ]
    rcases ih with ⟨h1, h2, h3⟩ | h1
    · rcases inc_spec hm hQ hθ h1 h2 with ⟨g1, _, _⟩ | ⟨g1, g2, g3, _, _⟩
      · right
        exact g1
      · left
        exact ⟨g1, g2, g3⟩
    · right
      show (scanJ m Q θ (iterN m Q θ n).m_j ((iterN m Q θ n).m_i + 1)
        (iterN m Q θ n).m_sdc).m_j = size m
      rw [h1, scanJ, if_neg (lt_irrefl (size m))]

/-- The first state that reaches the end column is exactly `(0, size)`. -/
theorem iterN_first_end {m : sequence_matcher} {Q : bigrams} {θ : ℚ}
    (hm : ∀ p ∈ m, bigrams.WF p.1) (hQ : bigrams.WF Q) (hθ : 0 < θ) :
    ∀ n, (∀ k, k < n → (iterN m Q θ k).m_j < size m) →
    (iterN m Q θ n).m_j = size m → (iterN m Q θ n).m_i = 0 := by
  intro n hprev hend
  cases n with
  | zero =>
    rw [iterN_zero] at hend ⊢
    rcases begin_spec hm hQ hθ with ⟨_, h2, _⟩ | ⟨h1, _, _, _⟩
    · exact h2
    · omega
  | succ n =>
    have hn : (iterN m Q θ n).m_j < size m := hprev n (by omega)
    rcases iterN_inv hm hQ hθ n with ⟨h1, h2, _⟩ | h1
    · rw [iterN_succ] at hend ⊢
      rcases inc_spec hm hQ hθ h1 h2 with ⟨_, g2, _⟩ | ⟨g1, _, _, _, _⟩
      · exact g2
      · omega
    · omega

/-- Each advancement from a reported match strictly increases the pair
`(j, i)` in the column-major lexicographic order. -/
theorem inc_increases {m : sequence_matcher} {Q : bigrams} {θ : ℚ}
    (hm : ∀ p ∈ m, bigrams.WF p.1) (hQ : bigrams.WF Q) (hθ : 0 < θ)
    {st : iterator} (hlt : st.m_j < size m)
    (hq : Qual m Q θ st.m_j st.m_i) :
    st.m_j < (inc m Q θ st).m_j ∨
      (st.m_j = (inc m Q θ st).m_j ∧ st.m_i < (inc m Q θ st).m_i) := by
  rcases inc_spec hm hQ hθ hlt hq with ⟨g1, _, _⟩ | ⟨_, _, _, g4, _⟩
  · left
    omega
  · omega

end sequence_matcher

namespace sequence_matcher

/-! Completeness: every qualifying cell is eventually reported. -/

/-- Once the scan position has reached the end column or passed the cell
`(j, i)`, that remains true after an advancement. -/
theorem passed_mono {m : sequence_matcher} {Q : bigrams} {θ : ℚ}
    (hm : ∀ p ∈ m, bigrams.WF p.1) (hQ : bigrams.WF Q) (hθ : 0 < θ)
    {j i : ℕ} (n : ℕ)
    (h : size m ≤ (iterN m Q θ n).m_j ∨ j < (iterN m Q θ n).m_j ∨
      (j = (iterN m Q θ n).m_j ∧ i ≤ (iterN m Q θ n).m_i)) :
    size m ≤ (iterN m Q θ (n + 1)).m_j ∨ j < (iterN m Q θ (n + 1)).m_j ∨
      (j = (iterN m Q θ (n + 1)).m_j ∧ i ≤ (iterN m Q θ (n + 1)).m_i) := by
  have hstep : iterN m Q θ (n + 1) = inc m Q θ (iterN m Q θ n) :=
    iterN_succ m Q θ n
  rcases iterN_inv hm hQ hθ n with ⟨h1, h2, _⟩ | h1
  · have hinc := inc_increases hm hQ hθ h1 h2
    rw [hstep]
    omega
  · have he : (inc m Q θ (iterN m Q θ n)).m_j = size m := by
      show (scanJ m Q θ (iterN m Q θ n).m_j ((iterN m Q θ n).m_i + 1)
        (iterN m Q θ n).m_sdc).m_j = size m
      rw [h1, scanJ, if_neg (lt_irrefl (size m))]
    rw [hstep]
    omega


/-- While the scan position stays strictly before the cell `(j, i)` (and
before the end column), the position counter `m_j * (size + 1) + m_i`
grows by at least one per advancement, so it dominates the step count. -/
theorem pos_growth {m : sequence_matcher} {Q : bigrams} {θ : ℚ}
    (hm : ∀ p ∈ m, bigrams.WF p.1) (hQ : bigrams.WF Q) (hθ : 0 < θ)
    {j i : ℕ} :
    ∀ n, (∀ k, k ≤ n →
      ¬ (size m ≤ (iterN m Q θ k).m_j ∨ j < (iterN m Q θ k).m_j ∨
        (j = (iterN m Q θ k).m_j ∧ i ≤ (iterN m Q θ k).m_i))) →
    n ≤ (iterN m Q θ n).m_j * (size m + 1) + (iterN m Q θ n).m_i := by
  intro n
  induction n with
  | zero =>
    intro _
    omega
  | succ n ih =>
    intro hall
    have hn := ih (fun k hk => hall k (by omega))
    have hCn := hall n (by omega)
    have hCn1 := hall (n + 1) (by omega)
    push_neg at hCn hCn1
    have h1 : (iterN m Q θ n).m_j < size m := by omega
    rcases iterN_inv hm hQ hθ n with ⟨_, h2, _⟩ | h1'
    · have hq1 : (iterN m Q θ n).m_i + (iterN m Q θ n).m_j < size m := h2.2.1
      have hstep : iterN m Q θ (n + 1) = inc m Q θ (iterN m Q θ n) :=
        iterN_succ m Q θ n
      have hinc := inc_increases hm hQ hθ h1 h2
      rw [← hstep] at hinc
      rcases hinc with hj | ⟨hj, hi⟩
      · have hmul : ((iterN m Q θ n).m_j + 1) * (size m + 1)
            ≤ (iterN m Q θ (n + 1)).m_j * (size m + 1) :=
          Nat.mul_le_mul_right (size m + 1) (by omega)
        rw [Nat.add_mul, Nat.one_mul] at hmul
        generalize hA : (iterN m Q θ n).m_j * (size m + 1) = A at hn hmul
        generalize hB : (iterN m Q θ (n + 1)).m_j * (size m + 1) = B at hmul ⊢
        omega
      · rw [← hj]
        omega
    · omega

/-- The scan cannot stay strictly before the cell `(j, i)` forever: after
enough advancements it reaches the end column or reaches/passes the cell. -/
theorem passed_exists {m : sequence_matcher} {Q : bigrams} {θ : ℚ}
    (hm : ∀ p ∈ m, bigrams.WF p.1) (hQ : bigrams.WF Q) (hθ : 0 < θ)
    (j i : ℕ) :
    ∃ n, size m ≤ (iterN m Q θ n).m_j ∨ j < (iterN m Q θ n).m_j ∨
      (j = (iterN m Q θ n).m_j ∧ i ≤ (iterN m Q θ n).m_i) := by
  by_contra hcon
  push_neg at hcon
  have hall : ∀ k, k ≤ size m * (size m + 1) + size m →
      ¬ (size m ≤ (iterN m Q θ k).m_j ∨ j < (iterN m Q θ k).m_j ∨
        (j = (iterN m Q θ k).m_j ∧ i ≤ (iterN m Q θ k).m_i)) := by
    intro k _
    have h1 := (hcon k).1
    have h2 := (hcon k).2.1
    have h3 := (hcon k).2.2
    omega
  have hgrow := pos_growth hm hQ hθ (size m * (size m + 1) + size m) hall
  have hlast := hall (size m * (size m + 1) + size m) (by omega)
  push_neg at hlast
  have h1 : (iterN m Q θ (size m * (size m + 1) + size m)).m_j < size m := by
    omega
  rcases iterN_inv hm hQ hθ (size m * (size m + 1) + size m) with
    ⟨_, h2, _⟩ | h1'
  · have hq1 : (iterN m Q θ (size m * (size m + 1) + size m)).m_i
        + (iterN m Q θ (size m * (size m + 1) + size m)).m_j < size m :=
      h2.2.1
    generalize hjx : (iterN m Q θ (size m * (size m + 1) + size m)).m_j = jx
      at h1 hgrow hq1
    generalize hix : (iterN m Q θ (size m * (size m + 1) + size m)).m_i = ix
      at hgrow hq1
    have hmul : (jx + 1) * (size m + 1) ≤ size m * (size m + 1) :=
      Nat.mul_le_mul_right (size m + 1) (by omega)
    rw [Nat.add_mul, Nat.one_mul] at hmul
    generalize hA : jx * (size m + 1) = A at hgrow hmul
    generalize hB : size m * (size m + 1) = B at hgrow hmul
    omega
  · omega

/-- Every qualifying cell is reported by some state of the iteration. -/
theorem reported_complete {m : sequence_matcher} {Q : bigrams} {θ : ℚ}
    (hm : ∀ p ∈ m, bigrams.WF p.1) (hQ : bigrams.WF Q) (hθ : 0 < θ)
    {j i : ℕ} (hq : Qual m Q θ j i) :
    ∃ n, (iterN m Q θ n).m_j = j ∧ (iterN m Q θ n).m_i = i := by
  obtain ⟨n, hC⟩ := passed_exists hm hQ hθ (θ := θ) j i
  induction n using Nat.strong_induction_on with
  | _ n ih =>
    by_cases hprev : ∃ k, k < n ∧
        (size m ≤ (iterN m Q θ k).m_j ∨ j < (iterN m Q θ k).m_j ∨
          (j = (iterN m Q θ k).m_j ∧ i ≤ (iterN m Q θ k).m_i))
    · obtain ⟨k, hk, hCk⟩ := hprev
      exact ih k hk hCk
    · push_neg at hprev
      cases n with
      | zero =>
        rcases begin_spec hm hQ hθ with ⟨_, _, h3⟩ | ⟨h1, h2, _, h5⟩
        · exact absurd hq (h3 j i)
        · refine ⟨0, ?_⟩
          rw [iterN_zero]
          by_contra hne
          have hlex : j < (begin m Q θ).m_j ∨
              (j = (begin m Q θ).m_j ∧ i < (begin m Q θ).m_i) := by
            rw [iterN_zero] at hC
            omega
          exact absurd hq (h5 j i hlex)
      | succ k =>
        have hCk := hprev k (by omega)
        push_neg at hCk
        have h1 : (iterN m Q θ k).m_j < size m := by omega
        rcases iterN_inv hm hQ hθ k with ⟨_, h2, _⟩ | h1'
        · have hstep : iterN m Q θ (k + 1) = inc m Q θ (iterN m Q θ k) :=
            iterN_succ m Q θ k
          rcases inc_spec hm hQ hθ h1 h2 with ⟨_, _, g3⟩ | ⟨g1, _, _, _, g5⟩
          · exact absurd hq (g3 j i (by omega))
          · refine ⟨k + 1, ?_⟩
            rw [hstep]
            rw [hstep] at hC
            by_contra hne
            have hlex : j < (inc m Q θ (iterN m Q θ k)).m_j ∨
                (j = (inc m Q θ (iterN m Q θ k)).m_j ∧
                  i < (inc m Q θ (iterN m Q θ k)).m_i) := by
              omega
            exact absurd hq (g5 j i (by omega) hlex)
        · omega

end sequence_matcher


open sequence_matcher in
/-- Claim C1: for every matcher holding appended token profiles and every
in-triangle cell `(i, j)` with `i + j < N`, `bigrams_size` (the code's
`size_at`) returns the sum of the sizes of the row-0 profiles at positions
`j..j+i`, and `bigrams_at` (the code's `profile_at`) returns the multiset
union of the row-0 profiles at those positions, both computed by the
recursive split `i1 = i/2, j1 = j, i2 = i - i1 - 1, j2 = j + i1 + 1` with
row 0 as base case. -/
theorem claim_C1 {m : sequence_matcher} (hm : ∀ p ∈ m, bigrams.WF p.1)
    {i j : ℕ} (hij : i + j < size m) :
    bigrams_size m i j
      = ∑ k ∈ Finset.range (i + 1), (prof0 m (j + k)).m_size ∧
    bigrams.toMul (bigrams_at m i j).m_impl
      = ∑ k ∈ Finset.range (i + 1), bigrams.toMul (prof0 m (j + k)).m_impl :=
  ⟨bigrams_size_eq_sum m i j, toMul_bigrams_at hm i j⟩

open sequence_matcher in
/-- Witness for C1 on a two-token matcher at cell `(1, 0)`. -/
theorem claim_C1_witness :
    (∀ p ∈ [(bigrams.ofString [97, 98, 99], false),
            (bigrams.ofString [99, 100], true)], bigrams.WF p.1) ∧
    1 + 0 < size [(bigrams.ofString [97, 98, 99], false),
                  (bigrams.ofString [99, 100], true)] ∧
    (bigrams_size [(bigrams.ofString [97, 98, 99], false),
                   (bigrams.ofString [99, 100], true)] 1 0
       = ∑ k ∈ Finset.range (1 + 1),
           (prof0 [(bigrams.ofString [97, 98, 99], false),
                   (bigrams.ofString [99, 100], true)] (0 + k)).m_size ∧
     bigrams.toMul (bigrams_at [(bigrams.ofString [97, 98, 99], false),
                   (bigrams.ofString [99, 100], true)] 1 0).m_impl
       = ∑ k ∈ Finset.range (1 + 1),
           bigrams.toMul (prof0 [(bigrams.ofString [97, 98, 99], false),
                   (bigrams.ofString [99, 100], true)] (0 + k)).m_impl) := by
  have hm : ∀ p ∈ [(bigrams.ofString [97, 98, 99], false),
      (bigrams.ofString [99, 100], true)], bigrams.WF p.1 := by
    intro p hp
    rcases List.mem_cons.mp hp with rfl | hp
    · exact bigrams.WF_ofString _
    · rcases List.mem_cons.mp hp with rfl | hp
      · exact bigrams.WF_ofString _
      · exact absurd hp (List.not_mem_nil p)
  have hij : 1 + 0 < size [(bigrams.ofString [97, 98, 99], false),
      (bigrams.ofString [99, 100], true)] := by
    norm_num [size]
  exact ⟨hm, hij, claim_C1 hm hij⟩

open sequence_matcher in
/-- Claim C2: for every matcher, query profile with positive size and
threshold in `(0, 1]`: every reported match is an in-triangle cell whose
SDC against the query reaches the threshold and whose first and last
token are not strip tokens; every cell pruned by the cardinality-ratio
check (either way) has SDC strictly below the threshold; after a `break`
every longer window in the same column is below the threshold as well;
and conversely every cell meeting all the conditions is reported. -/
theorem claim_C2 {m : sequence_matcher} {Q : bigrams} {θ : ℚ}
    (hm : ∀ p ∈ m, bigrams.WF p.1) (hQ : bigrams.WF Q)
    (hQ0 : 0 < Q.m_size) (hθ0 : 0 < θ) (hθ1 : θ ≤ 1) :
    (∀ n, (iterN m Q θ n).m_j < size m →
       θ ≤ bigrams.sorensen_dice_coef
           (bigrams_at m (iterN m Q θ n).m_i (iterN m Q θ n).m_j) Q ∧
       stripAt m (iterN m Q θ n).m_j = false ∧
       stripAt m ((iterN m Q θ n).m_j + (iterN m Q θ n).m_i) = false ∧
       (iterN m Q θ n).m_i + (iterN m Q θ n).m_j < size m) ∧
    (∀ i j d, cardRatioPrune (bigrams_size m i j) Q.m_size (cardRatioBound θ)
        = some d →
      bigrams.sorensen_dice_coef (bigrams_at m i j) Q < θ) ∧
    (∀ i j, cardRatioPrune (bigrams_size m i j) Q.m_size (cardRatioBound θ)
        = some false →
      ∀ i', i ≤ i' →
        bigrams.sorensen_dice_coef (bigrams_at m i' j) Q < θ) ∧
    (∀ j i, stripAt m j = false → stripAt m (j + i) = false →
      i + j < size m →
      θ ≤ bigrams.sorensen_dice_coef (bigrams_at m i j) Q →
      ∃ n, (iterN m Q θ n).m_j = j ∧ (iterN m Q θ n).m_i = i) := by
  refine ⟨?_, ?_, ?_, ?_⟩
  · intro n hn
    rcases iterN_inv hm hQ hθ0 n with ⟨_, h2, _⟩ | h1
    · exact ⟨h2.2.2.2, h2.1, h2.2.2.1, h2.2.1⟩
    · omega
  · intro i j d hp
    exact sdc_lt_of_prune_cell hm hQ hθ0 hp
  · intro i j hp i' hii
    exact break_row hm hQ hθ0 hp i' hii
  · intro j i hs1 hs2 hij hsdc
    exact reported_complete hm hQ hθ0 ⟨hs1, hij, hs2, hsdc⟩

open sequence_matcher in
/-- Claim C6: matches are enumerated in ascending lexicographic order of
`(j, i)` with `j` major; each `operator ++` applied to a reported match
strictly increases `(j, i)` in that order.  The enumeration is a pure
function of the matcher contents, the query and the threshold (the model
has no cell cache: cached values are recomputed identically), hence
deterministic and independent of cache state. -/
theorem claim_C6 {m : sequence_matcher} {Q : bigrams} {θ : ℚ}
    (hm : ∀ p ∈ m, bigrams.WF p.1) (hQ : bigrams.WF Q) (hθ0 : 0 < θ) :
    ∀ n, (iterN m Q θ n).m_j < size m →
      ((iterN m Q θ n).m_j < (iterN m Q θ (n + 1)).m_j ∨
        ((iterN m Q θ n).m_j = (iterN m Q θ (n + 1)).m_j ∧
          (iterN m Q θ n).m_i < (iterN m Q θ (n + 1)).m_i)) := by
  intro n hn
  rcases iterN_inv hm hQ hθ0 n with ⟨_, h2, _⟩ | h1
  · rw [iterN_succ]
    exact inc_increases hm hQ hθ0 hn h2
  · omega

open sequence_matcher in
/-- Claim C8: the sentinel produced by `end()` carries `(i, j) = (0, N)`;
iterator equality is decided by the `(i, j)` pair alone; and an iterator
driven by `++` without stepping past the end becomes end-equal exactly
when its column index reaches `j ≥ N` (any iterator that has reached a
position `(·, N)` equals the sentinel, its row index being `0` there). -/
theorem claim_C8 {m : sequence_matcher} {Q : bigrams} {θ : ℚ}
    (hm : ∀ p ∈ m, bigrams.WF p.1) (hQ : bigrams.WF Q) (hθ0 : 0 < θ) :
    endIter m = ⟨0, size m, 0⟩ ∧
    (∀ a b : iterator, iterEq a b = true ↔ (a.m_i = b.m_i ∧ a.m_j = b.m_j)) ∧
    (∀ n, (∀ k, k < n → (iterN m Q θ k).m_j < size m) →
      (size m ≤ (iterN m Q θ n).m_j ↔
        iterEq (iterN m Q θ n) (endIter m) = true)) := by
  refine ⟨endIter_eq m, ?_, ?_⟩
  · intro a b
    simp [iterEq, Bool.and_eq_true, beq_iff_eq]
  · intro n hprev
    constructor
    · intro hge
      have hj : (iterN m Q θ n).m_j = size m := by
        rcases iterN_inv hm hQ hθ0 n with ⟨h1, _, _⟩ | h1
        · omega
        · exact h1
      have hi := iterN_first_end hm hQ hθ0 n hprev hj
      rw [endIter_eq]
      simp [iterEq, Bool.and_eq_true, beq_iff_eq, hi, hj]
    · intro heq
      rw [endIter_eq] at heq
      simp [iterEq, Bool.and_eq_true, beq_iff_eq] at heq
      omega

/-- Claim C9: every counted-representation profile reachable by the empty
constructor, construction from a string, copy, `operator +=` or `unite`
satisfies the representation invariant: the `(bigram, count)` list is
strictly increasing under the comparator (no duplicate keys), every count
is at least `1`, and the cached `m_size` equals the sum of the counts, so
`size()` agrees with what iteration yields (the cardinality of the
denoted multiset). -/
theorem claim_C9 : ∀ a : bigrams, bigrams.Reachable a →
    a.m_impl.Pairwise bigrams.keyLt ∧ (∀ z ∈ a.m_impl, 1 ≤ z.2) ∧
    a.m_size = bigrams.sumCounts a.m_impl ∧
    a.m_size = Multiset.card (bigrams.toMul a.m_impl) := by
  intro a ha
  have hwf := bigrams.WF_reachable ha
  exact ⟨hwf.1, hwf.2.1, hwf.2.2, by rw [bigrams.card_toMul, ← hwf.2.2]⟩

/-- Witness for C9 at the profile of the string `"ab"`. -/
theorem claim_C9_witness :
    bigrams.Reachable (bigrams.ofString [97, 98]) ∧
    ((bigrams.ofString [97, 98]).m_impl.Pairwise bigrams.keyLt ∧
     (∀ z ∈ (bigrams.ofString [97, 98]).m_impl, 1 ≤ z.2) ∧
     (bigrams.ofString [97, 98]).m_size
       = bigrams.sumCounts (bigrams.ofString [97, 98]).m_impl ∧
     (bigrams.ofString [97, 98]).m_size
       = Multiset.card (bigrams.toMul (bigrams.ofString [97, 98]).m_impl)) :=
  ⟨bigrams.Reachable.ofString [97, 98],
   claim_C9 _ (bigrams.Reachable.ofString [97, 98])⟩

open sequence_matcher in
/-- Claim C10: with an empty query profile (size `0`) and any threshold in
`(0, 1]`, `begin` is end-equal immediately: cells of positive size are
pruned (the cardinality ratio is `+∞`, which the model records as the
`break` decision), and cells of size `0` reach the SDC computation which
returns `0 < θ`. -/
theorem claim_C10 {m : sequence_matcher} {Q : bigrams} {θ : ℚ}
    (hm : ∀ p ∈ m, bigrams.WF p.1) (hQ : bigrams.WF Q)
    (hQ0 : Q.m_size = 0) (hθ0 : 0 < θ) (hθ1 : θ ≤ 1) :
    iterEq (begin m Q θ) (endIter m) = true ∧
    (∀ i j, 0 < bigrams_size m i j →
      cardRatioPrune (bigrams_size m i j) Q.m_size (cardRatioBound θ)
        = some false) ∧
    (∀ i j, bigrams_size m i j = 0 →
      cardRatioPrune (bigrams_size m i j) Q.m_size (cardRatioBound θ)
        = none ∧
      bigrams.sorensen_dice_coef (bigrams_at m i j) Q = 0) := by
  have hθne : θ ≠ 0 := ne_of_gt hθ0
  have hnoQ : ∀ j i, ¬ Qual m Q θ j i := by
    intro j i hq
    have h0 : bigrams.sorensen_dice_coef (bigrams_at m i j) Q = 0 :=
      bigrams.sdc_empty_right hQ hQ0
    have := hq.2.2.2
    rw [h0] at this
    linarith
  refine ⟨?_, ?_, ?_⟩
  · rcases begin_spec hm hQ hθ0 with ⟨h1, h2, _⟩ | ⟨_, h2, _, _⟩
    · rw [endIter_eq]
      simp [iterEq, Bool.and_eq_true, beq_iff_eq, h1, h2]
    · exact absurd h2 (hnoQ _ _)
  · intro i j hpos
    rw [hQ0]
    rw [cardRatioBound, if_neg hθne]
    simp only [cardRatioPrune]
    simp [hpos.ne']
  · intro i j hzero
    constructor
    · rw [hQ0, hzero]
      rw [cardRatioBound, if_neg hθne]
      simp only [cardRatioPrune]
      simp
    · exact bigrams.sdc_empty_right hQ hQ0

/-- Claim C4: union size is additive in every representation: `operator +=`
(`plusEq`), `operator +` (`add`) and variadic `unite` produce a profile
whose size is the sum of the operand sizes, in the counted representation
(given the representation invariant), the ordered multiset representation
and the unordered multiset representation. -/
theorem claim_C4 :
    (∀ a b : bigrams, bigrams.WF a → bigrams.WF b →
      (bigrams.plusEq a b).m_size = a.m_size + b.m_size ∧
      (bigrams.add a b).m_size = a.m_size + b.m_size) ∧
    (∀ (a : bigrams) (l : List bigrams), bigrams.WF a →
      (∀ b ∈ l, bigrams.WF b) →
      (bigrams.unite a l).m_size = a.m_size + (l.map bigrams.m_size).sum) ∧
    (∀ a b : bigram_multiset,
      (bigram_multiset.plusEq a b).size = a.size + b.size ∧
      (bigram_multiset.add a b).size = a.size + b.size) ∧
    (∀ (a : bigram_multiset) (l : List bigram_multiset),
      (bigram_multiset.unite a l).size
        = a.size + (l.map bigram_multiset.size).sum) ∧
    (∀ a b : unordered_bigram_multiset,
      (unordered_bigram_multiset.plusEq a b).size = a.size + b.size ∧
      (unordered_bigram_multiset.add a b).size = a.size + b.size) ∧
    (∀ (a : unordered_bigram_multiset) (l : List unordered_bigram_multiset),
      (unordered_bigram_multiset.unite a l).size
        = a.size + (l.map unordered_bigram_multiset.size).sum) := by
  refine ⟨?_, ?_, ?_, ?_, ?_, ?_⟩
  · intro a b ha hb
    exact ⟨bigrams.m_size_plusEq hb, bigrams.m_size_add ha hb⟩
  · intro a l ha hl
    exact bigrams.m_size_unite ha hl
  · intro a b
    exact ⟨bigram_multiset.ms_size_plusEq a b, bigram_multiset.ms_size_add a b⟩
  · intro a l
    exact bigram_multiset.ms_size_unite
  · intro a b
    exact ⟨unordered_bigram_multiset.ums_size_plusEq a b,
           unordered_bigram_multiset.ums_size_add a b⟩
  · intro a l
    exact unordered_bigram_multiset.ums_size_unite

/-- Witness for C4 on the profiles of `"abc"` and `"bc"` in the counted
representation. -/
theorem claim_C4_witness :
    (bigrams.plusEq (bigrams.ofString [97, 98, 99])
        (bigrams.ofString [98, 99])).m_size
      = (bigrams.ofString [97, 98, 99]).m_size
        + (bigrams.ofString [98, 99]).m_size ∧
    (bigrams.add (bigrams.ofString [97, 98, 99])
        (bigrams.ofString [98, 99])).m_size
      = (bigrams.ofString [97, 98, 99]).m_size
        + (bigrams.ofString [98, 99]).m_size :=
  claim_C4.1 _ _ (bigrams.WF_ofString _) (bigrams.WF_ofString _)

/-- Claim C5: construction from a string of length `n` yields a profile of
size `n - 1` for `n ≥ 2` and size `0` for `n < 2` (i.e. `max(0, n - 1)`),
and the collected bigrams are exactly the adjacent pairs
`(s[k], s[k+1])`, `0 ≤ k ≤ n - 2`, with multiplicity — in all three
representations. -/
theorem claim_C5 : ∀ s : List ℕ,
    (bigrams.ofString s).m_size = s.length - 1 ∧
    bigrams.toMul (bigrams.ofString s).m_impl = ↑(adjPairs s) ∧
    (bigram_multiset.ofString s).size = s.length - 1 ∧
    (↑(bigram_multiset.ofString s).m_impl : Multiset Bigram)
      = ↑(adjPairs s) ∧
    (unordered_bigram_multiset.ofString s).size = s.length - 1 ∧
    (↑(unordered_bigram_multiset.ofString s).m_impl : Multiset Bigram)
      = ↑(adjPairs s) :=
  fun s =>
    ⟨bigrams.m_size_ofString s, bigrams.toMul_ofString s,
     bigram_multiset.ms_size_ofString s, bigram_multiset.ms_coe_ofString s,
     unordered_bigram_multiset.ums_size_ofString s,
     unordered_bigram_multiset.ums_coe_ofString s⟩

open sequence_matcher in
/-- Claim C7 (corrected): the iterator constructor does not validate the
threshold at all, so θ ≤ 0 is accepted rather than rejected; with θ = 0
the cardinality-ratio bound `2/θ - 1` is `+∞` (never pruning) and every
in-triangle non-strip cell has SDC ≥ 0 = θ, so matching starts
immediately.  A threshold θ > 1 is likewise accepted and the iteration
yields no matches, `begin` being end-equal at once. -/
theorem claim_C7 {m : sequence_matcher} {Q : bigrams} {θ : ℚ}
    (hm : ∀ p ∈ m, bigrams.WF p.1) (hQ : bigrams.WF Q) (hθ1 : 1 < θ) :
    iterEq (begin m Q θ) (endIter m) = true ∧
    ∀ n, ¬ (iterN m Q θ n).m_j < size m := by
  have hθ0 : 0 < θ := lt_trans one_pos hθ1
  have hnoQ : ∀ j i, ¬ Qual m Q θ j i := by
    intro j i hq
    have hle : bigrams.sorensen_dice_coef (bigrams_at m i j) Q ≤ 1 :=
      bigrams.sdc_le_one (WF_bigrams_at hm i j) hQ
    have := hq.2.2.2
    linarith
  constructor
  · rcases begin_spec hm hQ hθ0 with ⟨h1, h2, _⟩ | ⟨_, h2, _, _⟩
    · rw [endIter_eq]
      simp [iterEq, Bool.and_eq_true, beq_iff_eq, h1, h2]
    · exact absurd h2 (hnoQ _ _)
  · intro n hn
    rcases iterN_inv hm hQ hθ0 n with ⟨_, h2, _⟩ | h1
    · exact hnoQ _ _ h2
    · omega

open sequence_matcher in
/-- Witness for the corrected C7 with θ = 2 on a one-token matcher. -/
theorem claim_C7_witness :
    (1 : ℚ) < 2 ∧
    iterEq (begin [(bigrams.ofString [97, 98], false)]
        (bigrams.ofString [97, 98]) 2)
      (endIter [(bigrams.ofString [97, 98], false)]) = true := by
  have hm : ∀ p ∈ [(bigrams.ofString [97, 98], false)], bigrams.WF p.1 := by
    intro p hp
    rcases List.mem_cons.mp hp with rfl | hp
    · exact bigrams.WF_ofString _
    · exact absurd hp (List.not_mem_nil p)
  exact ⟨by norm_num,
    (claim_C7 hm (bigrams.WF_ofString _) (by norm_num)).1⟩

open sequence_matcher in
/-- Counterexample to C7 as stated: the constructor accepts θ = 0 (no
rejection happens anywhere), and on the single-token matcher for `"ab"`
with query `"ab"` the freshly constructed iterator immediately reports
the match at cell `(i, j) = (0, 0)` with SDC `1`; in particular it is
not end-equal, so θ ≤ 0 was not rejected. -/
theorem claim_C7_counterexample :
    begin [(bigrams.ofString [97, 98], false)] (bigrams.ofString [97, 98]) 0
      = ⟨0, 0, 1⟩ ∧
    iterEq
      (begin [(bigrams.ofString [97, 98], false)]
        (bigrams.ofString [97, 98]) 0)
      (endIter [(bigrams.ofString [97, 98], false)]) = false := by
  have hq : bigrams.ofString [97, 98] = ⟨[((97, 98), 1)], 1⟩ := by
    rw [bigrams.ofString]
    norm_num [adjPairs, List.insertionSort, bigrams.rle, bigrams.rleCons]
  have hbeg :
      begin [(bigrams.ofString [97, 98], false)]
        (bigrams.ofString [97, 98]) 0 = ⟨0, 0, 1⟩ := by
    rw [hq, begin]
    rw [scanJ]
    norm_num [size, stripAt]
    rw [scanI]
    norm_num [size, stripAt, cardRatioBound, cardRatioPrune]
    rw [bigrams_at]
    norm_num [prof0, bigrams.sorensen_dice_coef, bigrams.intersect_size,
      bigrams.isectCnt, bcmp]
  refine ⟨hbeg, ?_⟩
  rw [hbeg, endIter_eq]
  simp [iterEq, size]

/-- Claim C3 (code bug in the unordered representation):
`unordered_bigram_multiset::intersect_size` feeds the unsorted contents of
two hash multisets to `std::set_intersection`, which requires sorted input.
With container iteration orders `{ab, bc}` (for `"abc"`) and
`{bc, ca, ab}` (for `"bcab"`) — both legal for `std::unordered_multiset` —
the computed SDC is `2·1/(2+3) = 2/5`, while the Sørensen–Dice formula on
the actual multiset intersection `{ab, bc}` gives `2·2/(2+3) = 4/5`.  The
sorted representations satisfy the claim (see the SDC lemmas above); the
unordered one does not. -/
theorem claim_C3 :
    unordered_bigram_multiset.sorensen_dice_coef
        (unordered_bigram_multiset.ofString [97, 98, 99])
        (unordered_bigram_multiset.ofString [98, 99, 97, 98]) = 2 / 5 ∧
    2 * ((Multiset.card
          ((↑(unordered_bigram_multiset.ofString [97, 98, 99]).m_impl
             ∩ ↑(unordered_bigram_multiset.ofString
                  [98, 99, 97, 98]).m_impl : Multiset Bigram)) : ℚ))
        / (((unordered_bigram_multiset.ofString [97, 98, 99]).size : ℚ)
           + ((unordered_bigram_multiset.ofString [98, 99, 97, 98]).size : ℚ))
      = 4 / 5 ∧
    (2 : ℚ) / 5 ≠ 4 / 5 := by
  have h1 : unordered_bigram_multiset.ofString [97, 98, 99]
      = ⟨[(97, 98), (98, 99)]⟩ := by
    rw [unordered_bigram_multiset.ofString]
    congr 1
  have h2 : unordered_bigram_multiset.ofString [98, 99, 97, 98]
      = ⟨[(98, 99), (99, 97), (97, 98)]⟩ := by
    rw [unordered_bigram_multiset.ofString]
    congr 1
  refine ⟨?_, ?_, by norm_num⟩
  · rw [h1, h2]
    norm_num [unordered_bigram_multiset.sorensen_dice_coef,
      unordered_bigram_multiset.intersect_size,
      unordered_bigram_multiset.size, msIsectCnt, bltB]
  · rw [h1, h2]
    have hcard : Multiset.card
        ((↑([(97, 98), (98, 99)] : List Bigram)
           ∩ ↑([(98, 99), (99, 97), (97, 98)] : List Bigram)
           : Multiset Bigram)) = 2 := by decide
    rw [hcard]
    norm_num [unordered_bigram_multiset.size]

open sequence_matcher in
/-- Witness for C2: on a one-token matcher for `"ab"` with query profile
of `"abcdef"` and θ = 1/2, cell `(0, 0)` is pruned (`1 < 5`, bound `3 <
5/1`) and its SDC is indeed below the threshold. -/
theorem claim_C2_witness :
    cardRatioPrune
        (bigrams_size [(bigrams.ofString [97, 98], false)] 0 0)
        (bigrams.ofString [97, 98, 99, 100, 101, 102]).m_size
        (cardRatioBound (1 / 2)) = some true ∧
    bigrams.sorensen_dice_coef
        (bigrams_at [(bigrams.ofString [97, 98], false)] 0 0)
        (bigrams.ofString [97, 98, 99, 100, 101, 102]) < 1 / 2 := by
  have hm : ∀ p ∈ [(bigrams.ofString [97, 98], false)], bigrams.WF p.1 := by
    intro p hp
    rcases List.mem_cons.mp hp with rfl | hp
    · exact bigrams.WF_ofString _
    · exact absurd hp (List.not_mem_nil p)
  have hB : bigrams_size [(bigrams.ofString [97, 98], false)] 0 0 = 1 := by
    rw [bigrams_size]
    norm_num [prof0, bigrams.m_size_ofString]
  have hA : (bigrams.ofString [97, 98, 99, 100, 101, 102]).m_size = 5 := by
    rw [bigrams.m_size_ofString]
    decide
  have heval : cardRatioPrune
      (bigrams_size [(bigrams.ofString [97, 98], false)] 0 0)
      (bigrams.ofString [97, 98, 99, 100, 101, 102]).m_size
      (cardRatioBound (1 / 2)) = some true := by
    rw [hB, hA]
    norm_num [cardRatioBound, cardRatioPrune]
  refine ⟨heval, ?_⟩
  exact (claim_C2 hm (bigrams.WF_ofString _) (by rw [hA]; norm_num)
    (by norm_num) (by norm_num)).2.1 0 0 true heval

open sequence_matcher in
/-- Witness for C6: on the one-token matcher for `"ab"` with query `"ab"`
and θ = 1/2, the initial state reports the match at `(0, 0)` and the next
state strictly increases in the `(j, i)` order. -/
theorem claim_C6_witness :
    (iterN [(bigrams.ofString [97, 98], false)]
        (bigrams.ofString [97, 98]) (1 / 2) 0).m_j
      < size [(bigrams.ofString [97, 98], false)] ∧
    ((iterN [(bigrams.ofString [97, 98], false)]
        (bigrams.ofString [97, 98]) (1 / 2) 0).m_j
      < (iterN [(bigrams.ofString [97, 98], false)]
          (bigrams.ofString [97, 98]) (1 / 2) 1).m_j ∨
     ((iterN [(bigrams.ofString [97, 98], false)]
         (bigrams.ofString [97, 98]) (1 / 2) 0).m_j
        = (iterN [(bigrams.ofString [97, 98], false)]
            (bigrams.ofString [97, 98]) (1 / 2) 1).m_j ∧
      (iterN [(bigrams.ofString [97, 98], false)]
          (bigrams.ofString [97, 98]) (1 / 2) 0).m_i
        < (iterN [(bigrams.ofString [97, 98], false)]
            (bigrams.ofString [97, 98]) (1 / 2) 1).m_i)) := by
  have hm : ∀ p ∈ [(bigrams.ofString [97, 98], false)], bigrams.WF p.1 := by
    intro p hp
    rcases List.mem_cons.mp hp with rfl | hp
    · exact bigrams.WF_ofString _
    · exact absurd hp (List.not_mem_nil p)
  have hq : bigrams.ofString [97, 98] = ⟨[((97, 98), 1)], 1⟩ := by
    rw [bigrams.ofString]
    norm_num [adjPairs, List.insertionSort, bigrams.rle, bigrams.rleCons]
  have h0 : iterN [(bigrams.ofString [97, 98], false)]
      (bigrams.ofString [97, 98]) (1 / 2) 0 = ⟨0, 0, 1⟩ := by
    rw [iterN_zero, hq, begin]
    rw [scanJ]
    norm_num [size, stripAt]
    rw [scanI]
    norm_num [size, stripAt, cardRatioBound, cardRatioPrune]
    rw [bigrams_size]
    norm_num [prof0]
    rw [bigrams_at]
    norm_num [prof0, bigrams.sorensen_dice_coef, bigrams.intersect_size,
      bigrams.isectCnt, bcmp]
  have hlt : (iterN [(bigrams.ofString [97, 98], false)]
      (bigrams.ofString [97, 98]) (1 / 2) 0).m_j
      < size [(bigrams.ofString [97, 98], false)] := by
    rw [h0]
    norm_num [size]
  exact ⟨hlt, claim_C6 hm (bigrams.WF_ofString _) (by norm_num) 0 hlt⟩

open sequence_matcher in
/-- Witness for C8 on a one-token matcher: the sentinel is `(0, N)` and
at step `0` end-equality coincides with `j ≥ N`. -/
theorem claim_C8_witness :
    endIter [(bigrams.ofString [97, 98], false)]
      = ⟨0, size [(bigrams.ofString [97, 98], false)], 0⟩ ∧
    (size [(bigrams.ofString [97, 98], false)]
        ≤ (iterN [(bigrams.ofString [97, 98], false)]
            (bigrams.ofString [97, 98]) (1 / 2) 0).m_j ↔
      iterEq (iterN [(bigrams.ofString [97, 98], false)]
          (bigrams.ofString [97, 98]) (1 / 2) 0)
        (endIter [(bigrams.ofString [97, 98], false)]) = true) := by
  have hm : ∀ p ∈ [(bigrams.ofString [97, 98], false)], bigrams.WF p.1 := by
    intro p hp
    rcases List.mem_cons.mp hp with rfl | hp
    · exact bigrams.WF_ofString _
    · exact absurd hp (List.not_mem_nil p)
  refine ⟨(claim_C8 hm (bigrams.WF_ofString [97, 98])
      (by norm_num : (0:ℚ) < 1/2)).1, ?_⟩
  exact (claim_C8 hm (bigrams.WF_ofString [97, 98])
      (by norm_num : (0:ℚ) < 1/2)).2.2 0 (by omega)

open sequence_matcher in
/-- Witness for C10: with the default-constructed (empty) query and
θ = 1/2 the freshly constructed iterator is end-equal. -/
theorem claim_C10_witness :
    iterEq (begin [(bigrams.ofString [97, 98], false)] ⟨[], 0⟩ (1 / 2))
      (endIter [(bigrams.ofString [97, 98], false)]) = true := by
  have hm : ∀ p ∈ [(bigrams.ofString [97, 98], false)], bigrams.WF p.1 := by
    intro p hp
    rcases List.mem_cons.mp hp with rfl | hp
    · exact bigrams.WF_ofString _
    · exact absurd hp (List.not_mem_nil p)
  exact (claim_C10 hm bigrams.WF_empty rfl (by norm_num) (by norm_num)).1

end Libsdcxx
